import Mathlib

/-!
Chunked Boyer-Moore-Horspool search (`ext/bmh_search/bmh_search.c`).

A shallow embedding of the `BMHSearch` matcher: the skip table built by
`BMHSearch_init`, the scan of one chunk by `BMHSearch_find` (boundary-carry
check, main backward scan, end-of-chunk trailing detection) and the drain
`BMHSearch_pop`, followed by the properties established about them.

Conventions of the embedding.
* A byte (`unsigned char`) is a `Fin 256`; a Ruby string is a `List Byte`, its
  `len` the length of the list.
* `size_t` values are natural numbers.  All of them are positions inside or
  sums of lengths of strings held in memory, far below `2 ^ 64`.  The
  subtractions of the source (`nlen - skip`, `htotal - skip`, `hlen - nlen`,
  `nlen - occ[..]`) never go below zero on states produced by `BMHSearch_init`
  and `BMHSearch_find`.
* `rb_raise` leaves the call at once; the state it leaves behind is kept, so
  a call yields the state after it together with its outcome.
* The field `found_at` is the memory from the base of the result buffer on:
  the `max_find` cells allocated by `BMHSearch_init`, followed by the cells
  that stores past the allocation have written (the source makes such stores,
  see `put`).  A store `found_at[nfound++] = v` is `put` followed by the
  increment, and `BMHSearch_pop` reads the cells `0 .. nfound - 1`, whatever
  `max_find` is.  A cell never written reads `0`.
* The read `haystack[hpos]` at `hpos = hlen` that follows a match ending the
  scan (source line 180) is one byte past the chunk; it is modelled by the
  default value `0` of `List.getD`.  The function `scanChecked` is the same
  scan with checked reads, which yields `none` at such a read.
-/

namespace BMHSearch

/-- One `unsigned char`. -/
abbrev Byte := Fin 256

/-- The messages with which the functions raise `BMHSearchError`. -/
inductive BMHSearchError where
  /-- Message "Haystack can't be smaller than needle." (line 129). -/
  | haystackTooSmall
  /-- Message "Needle can't be 0 length." (lines 76 and 131). -/
  | needleEmpty
  /-- Message "Corrupt search state. REALLY BAD!" (line 133), raised on a null
  pointer; the strings of the model are lists and never null. -/
  | corruptState
  /-- Message "More than max requested needles found. Use pop." (line 163). -/
  | tooManyFound
  deriving DecidableEq, Repr

/-- The fields of `struct BMHSearchState`. -/
structure BMHSearchState where
  occ : Byte → Nat
  htotal : Nat
  needle : List Byte
  nlen : Nat
  skip : Nat
  max_find : Nat
  found_at : List Nat
  nfound : Nat

/-- The second loop of the preprocessing in `BMHSearch_init` (lines 90-95),
running over the needle bytes not yet visited: `b = b - 1; occ[needle[a]] = b`. -/
def populate : List Byte → Nat → (Byte → Nat) → (Byte → Nat)
  | [], _, occ => occ
  | c :: rest, b, occ => populate rest (b - 1) (Function.update occ c (b - 1))

/-- Function `BMHSearch_init` (lines 61-98): the state it sets up, or the
error it raises for a needle of length 0. -/
def BMHSearch_init (needle : List Byte) (max_find : Nat) :
    Except BMHSearchError BMHSearchState :=
  let nlen := needle.length
  if nlen ≤ 0 then .error .needleEmpty
  else
    .ok { occ := populate needle nlen (fun _ => nlen)
          htotal := 0
          needle := needle
          nlen := nlen
          skip := 0
          max_find := max_find
          found_at := List.replicate max_find 0
          nfound := 0 }

/-- The store `found_at[i] = v` of lines 142 and 159.  The source makes it
without looking at `max_find`: inside the cells held by the list the cell is
overwritten; past them the memory is extended up to cell `i`, which receives
`v` (cells in between, never written, hold `0`). -/
def put (found_at : List Nat) (i v : Nat) : List Nat :=
  if i < found_at.length then found_at.set i v
  else found_at ++ List.replicate (i - found_at.length) 0 ++ [v]

/-- How the main scan of `BMHSearch_find` is left. -/
inductive ScanExit where
  /-- The outer `while` ended; buffer, counter and `last` as they then are. -/
  | finished (found_at : List Nat) (nfound last : Nat)
  /-- The `rb_raise` of line 163, with buffer and counter as they then are. -/
  | raised (found_at : List Nat) (nfound : Nat)
  /-- The iteration budget of the model ran out before the loops ended. -/
  | diverged
  deriving DecidableEq, Repr

/-- The main backward scan of `BMHSearch_find` (lines 152-182), entered at the
test of the inner `while` with the current `hpos`, `npos`, buffer, counter and
`last`.  The test of the outer `while` (line 152) and the reset of `npos`
(line 154) are performed where the source returns to them, after line 181.
The first argument bounds the number of inner tests performed. -/
def scan (S : BMHSearchState) (hay : List Byte) :
    Nat → Nat → Nat → List Nat → Nat → Nat → ScanExit
  | 0, _, _, _, _, _ => .diverged
  | fuel + 1, hpos, npos, found_at, nfound, last =>
    if hpos < hay.length ∧ hay.getD hpos 0 = S.needle.getD npos 0 then
      if npos = 0 then
        let found_at1 := put found_at nfound (hpos + S.htotal)
        let nfound1 := nfound + 1
        if nfound1 > S.max_find then .raised found_at1 nfound1
        else scan S hay fuel (hpos + S.nlen + S.nlen - 1) (S.nlen - 1) found_at1 nfound1 hpos
      else scan S hay fuel (hpos - 1) (npos - 1) found_at nfound last
    else if hpos > hay.length then .finished found_at nfound last
    else
      let hpos1 := hpos + max (S.nlen - npos) (S.occ (hay.getD hpos 0))
      if hpos1 < hay.length then scan S hay fuel hpos1 (S.nlen - 1) found_at nfound last
      else .finished found_at nfound last

/-- The `for` loop of the trailing detection (lines 201-207), with the number
of iterations left (`hlen - hpos`), the current `hpos` and the current `skip`.
Yields `found_it` and `skip` as they are when the loop is left. -/
def tailLoop (S : BMHSearchState) (hay : List Byte) : Nat → Nat → Nat → Bool × Nat
  | 0, _, skip => (false, skip)
  | left + 1, hpos, _ =>
    let skip := hay.length - hpos
    if (hay.drop hpos).take skip = S.needle.take skip then (true, skip)
    else tailLoop S hay left (hpos + 1) skip

/-- The end-of-chunk trailing detection of `BMHSearch_find` (lines 185-211):
the value of the local `skip` at line 214, given the counter and `last` left
by the main scan. -/
def trailing (S : BMHSearchState) (hay : List Byte) (nfound last : Nat) : Nat :=
  let hlen := hay.length
  if nfound = 0 ∨ last ≠ hlen - S.nlen then
    let back0 := S.nlen - S.occ (hay.getD (hlen - 1) 0)
    let back := if hay.getD (hlen - 1) 0 = S.needle.getD (S.nlen - 1) 0 then S.nlen - 1 else back0
    let r := if back < S.nlen ∧ back > 0 then tailLoop S hay back (hlen - back) 0 else (false, 0)
    if r.1 then r.2 else 0
  else 0

/-- The boundary-carry check of `BMHSearch_find` (lines 136-146): buffer and
counter after it. -/
def carryCheck (S : BMHSearchState) (hay : List Byte) : List Nat × Nat :=
  if S.skip ≠ 0 then
    let remainder := S.nlen - S.skip
    if hay.take remainder = (S.needle.drop S.skip).take remainder then
      (put S.found_at S.nfound (S.htotal - S.skip), S.nfound + 1)
    else (S.found_at, S.nfound)
  else (S.found_at, S.nfound)

/-- How a call of `BMHSearch_find` ends. -/
inductive Outcome where
  /-- The call returned `INT2FIX(nfound)`. -/
  | returned (nfound : Nat)
  /-- The call raised `BMHSearchError`. -/
  | raised (e : BMHSearchError)
  /-- The main scan did not end within the iteration budget of the model. -/
  | diverged
  deriving DecidableEq, Repr

/-- The state after a call of `BMHSearch_find` and the way the call ended. -/
structure FindResult where
  state : BMHSearchState
  outcome : Outcome

/-- Function `BMHSearch_find` (lines 115-219).  The increment `hpos += remainder` of
line 144 is overwritten by line 150 and has no effect.  The budget handed to
`scan` is `hlen * nlen + nlen` inner tests. -/
def BMHSearch_find (S : BMHSearchState) (hay : List Byte) : FindResult :=
  let hlen := hay.length
  if S.nlen > hlen then ⟨S, .raised .haystackTooSmall⟩
  else if S.nlen ≤ 0 then ⟨S, .raised .needleEmpty⟩
  else
    let c := carryCheck S hay
    let r := if S.nlen - 1 < hlen then
        scan S hay (hlen * S.nlen + S.nlen) (S.nlen - 1) (S.nlen - 1) c.1 c.2 0
      else .finished c.1 c.2 0
    match r with
    | .diverged => ⟨{ S with found_at := c.1, nfound := c.2 }, .diverged⟩
    | .raised found_at nfound =>
      ⟨{ S with found_at := found_at, nfound := nfound }, .raised .tooManyFound⟩
    | .finished found_at nfound last =>
      ⟨{ S with found_at := found_at, nfound := nfound,
                skip := trailing S hay nfound last, htotal := S.htotal + hlen },
       .returned nfound⟩

/-- Function `BMHSearch_pop` (lines 229-245): the array returned and the state
after.  The loop of lines 238-240 pushes `found_at[i]` for `i` from 0 to
`nfound - 1`, whatever `max_find` is. -/
def BMHSearch_pop (S : BMHSearchState) : List Nat × BMHSearchState :=
  ((List.range S.nfound).map (fun i => S.found_at.getD i 0), { S with nfound := 0 })

/-- Function `BMHSearch_nfound` (lines 254-259). -/
def BMHSearch_nfound (S : BMHSearchState) : Nat := S.nfound

/-- Function `BMHSearch_total` (lines 280-285). -/
def BMHSearch_total (S : BMHSearchState) : Nat := S.htotal

/-- Function `BMHSearch_has_trailing` (lines 309-314). -/
def BMHSearch_has_trailing (S : BMHSearchState) : Bool := decide (S.skip ≠ 0)

/-! ## Reference notions used to state the properties -/

/-- The needle `P` occurs in `H` at start offset `i`: the `|P|` bytes of `H`
from position `i` on are `P`. -/
def occursAt (P H : List Byte) (i : Nat) : Prop := (H.drop i).take P.length = P

/-- Occurrence at an offset is decided by comparing the bytes. -/
instance occursAtDecidable (P H : List Byte) (i : Nat) : Decidable (occursAt P H i) := by
  unfold occursAt; infer_instance

/-- Naive reference scanner: all start offsets `i` with `0 <= i <= |H| - |P|`
at which `P` occurs in `H`, in ascending order. -/
def allOcc (P H : List Byte) : List Nat :=
  (List.range (H.length + 1 - P.length)).filter (fun i => decide (occursAt P H i))

/-- From an ascending list of offsets keep, from left to right, each offset
that is at least `lo`, the bound then moving `n` past the offset kept. -/
def thin (n : Nat) : List Nat → Nat → List Nat
  | [], _ => []
  | x :: xs, lo => if lo ≤ x then x :: thin n xs (x + n) else thin n xs lo

/-- The occurrences of `P` in `H` from left to right, leaving out every
occurrence that starts before the end of the previous one kept. -/
def greedyOcc (P H : List Byte) : List Nat := thin P.length (allOcc P H) 0

/-- What lines 157-169 do with the chunk positions `ms` of the matches, in
turn: store, set `last`, raise when the counter has passed `max_find`. -/
def recordAll (S : BMHSearchState) : List Nat → List Nat → Nat → Nat → ScanExit
  | [], fa, nf, last => .finished fa nf last
  | m :: ms, fa, nf, _ =>
    if nf + 1 > S.max_find then .raised (put fa nf (m + S.htotal)) (nf + 1)
    else recordAll S ms (put fa nf (m + S.htotal)) (nf + 1) m


/-- What the scan relies on in a state: the stored length is that of the
needle, the needle is not empty, the skip table is bounded by the needle length and by
the distance from the end of each needle byte, and it is zero at the last
needle byte only. -/
structure TableOk (S : BMHSearchState) : Prop where
  len : S.nlen = S.needle.length
  pos : 0 < S.nlen
  occ_le : ∀ b, S.occ b ≤ S.nlen
  occ_at : ∀ j b, S.needle[j]? = some b → S.occ b ≤ S.nlen - 1 - j
  occ_zero : ∀ b, S.occ b = 0 → S.needle[S.nlen - 1]? = some b


/-- The state `BMHSearch_init` leaves for the needle `P` and capacity `c`
when it does not raise. -/
def fresh (P : List Byte) (c : Nat) : BMHSearchState :=
  { occ := populate P P.length (fun _ => P.length)
    htotal := 0
    needle := P
    nlen := P.length
    skip := 0
    max_find := c
    found_at := List.replicate c 0
    nfound := 0 }

/-- The stores `found_at[nfound++] = v` for the values `vs` in turn: buffer
and counter after them. -/
def store : List Nat → Nat → List Nat → List Nat × Nat
  | fa, nf, [] => (fa, nf)
  | fa, nf, v :: vs => store (put fa nf v) (nf + 1) vs

/-- The last element of a list, or `d` for the empty list: the value of the
local `last` after the main scan recorded the chunk positions `ms`. -/
def lastOr : Nat → List Nat → Nat
  | d, [] => d
  | _, m :: ms => lastOr m ms

/-- The offset recorded by the boundary-carry check of `BMHSearch_find` on
the chunk `hay`, if any. -/
def carried (S : BMHSearchState) (hay : List Byte) : List Nat :=
  if S.skip ≠ 0 ∧
      hay.take (S.nlen - S.skip) = (S.needle.drop S.skip).take (S.nlen - S.skip) then
    [S.htotal - S.skip]
  else []

/-- The offsets a returning call of `BMHSearch_find` stores for the chunk
`hay`, in the order of the stores. -/
def reported (S : BMHSearchState) (hay : List Byte) : List Nat :=
  carried S hay ++ (greedyOcc S.needle hay).map (· + S.htotal)

/-- The entries of the result buffer not yet popped: the array a call of
`BMHSearch_pop` would return. -/
def pending (S : BMHSearchState) : List Nat := (BMHSearch_pop S).1

/-- One call made on a matcher: `find` with a chunk, or `pop`. -/
inductive Op where
  | find (hay : List Byte)
  | pop

/-- The record of a sequence of calls: the state reached, the arrays returned
by the calls of `pop` one after the other, the chunks of the calls of `find`
that returned, and whether some call of `find` raised. -/
structure Run where
  state : BMHSearchState
  popped : List Nat
  fed : List (List Byte)
  failed : Bool

/-- One call, made on the state a run has reached. -/
def step (r : Run) : Op → Run
  | .pop =>
    { r with state := (BMHSearch_pop r.state).2,
             popped := r.popped ++ (BMHSearch_pop r.state).1 }
  | .find hay =>
    match (BMHSearch_find r.state hay).outcome with
    | .returned _ => { r with state := (BMHSearch_find r.state hay).state, fed := r.fed ++ [hay] }
    | _ => { r with state := (BMHSearch_find r.state hay).state, failed := true }

/-- The calls `ops` made in turn, starting from the state `S`. -/
def run (S : BMHSearchState) (ops : List Op) : Run :=
  ops.foldl step ⟨S, [], [], false⟩

/-- The first `k` bytes of `P` are the last `k` bytes of `H`. -/
def carryFits (P H : List Byte) (k : Nat) : Prop :=
  (H.drop (H.length - k)).take k = P.take k

/-- Whether a prefix of `P` ends `H` is decided by comparing the bytes. -/
instance carryFitsDecidable (P H : List Byte) (k : Nat) : Decidable (carryFits P H k) := by
  unfold carryFits; infer_instance

/-- The stream fed so far: the chunks of the returning calls of `find`, joined. -/
def Run.stream (r : Run) : List Byte := r.fed.flatten

/-- What holds of a run started on a state built for the needle `P`, as long
as no call of `find` raised. -/
structure StreamInv (P : List Byte) (r : Run) : Prop where
  ok : TableOk r.state
  needle : r.state.needle = P
  total : r.state.htotal = r.stream.length
  buf : r.state.nfound ≤ r.state.found_at.length
  carry : r.state.skip = 0 ∨
    (r.state.skip < P.length ∧ r.state.skip ≤ r.stream.length ∧
      carryFits P r.stream r.state.skip)
  sound : ∀ o ∈ r.popped ++ pending r.state, occursAt P r.stream o
  sorted : (r.popped ++ pending r.state).Pairwise (· < ·)
  count : r.state.nfound ≠ 0 → ∃ o, occursAt P r.stream o

/-- The main scan of `BMHSearch_find` (lines 152-182) as in `scan`, with every
read `haystack[hpos]` and `needle[npos]` made through the checked indexing of
lists: `none` as soon as a read falls outside the chunk or the needle.  The
inner test reads only when `hpos < hlen` holds (short-circuit `&&` of line
156); the read of line 180 is made on every path that passes line 177. -/
def scanChecked (S : BMHSearchState) (hay : List Byte) :
    Nat → Nat → Nat → List Nat → Nat → Nat → Option ScanExit
  | 0, _, _, _, _, _ => some .diverged
  | fuel + 1, hpos, npos, found_at, nfound, last =>
    let test : Option Bool :=
      if hpos < hay.length then
        match hay[hpos]?, S.needle[npos]? with
        | some h, some n => some (decide (h = n))
        | _, _ => none
      else some false
    match test with
    | none => none
    | some true =>
      if npos = 0 then
        let found_at1 := put found_at nfound (hpos + S.htotal)
        let nfound1 := nfound + 1
        if nfound1 > S.max_find then some (.raised found_at1 nfound1)
        else scanChecked S hay fuel (hpos + S.nlen + S.nlen - 1) (S.nlen - 1) found_at1 nfound1 hpos
      else scanChecked S hay fuel (hpos - 1) (npos - 1) found_at nfound last
    | some false =>
      if hpos > hay.length then some (.finished found_at nfound last)
      else
        match hay[hpos]? with
        | none => none
        | some b =>
          let hpos1 := hpos + max (S.nlen - npos) (S.occ b)
          if hpos1 < hay.length then
            scanChecked S hay fuel hpos1 (S.nlen - 1) found_at nfound last
          else some (.finished found_at nfound last)

/-- The smallest start offset of an occurrence of `P` in `H` that is at least
`lo`, if there is one. -/
def nextOcc (P H : List Byte) (lo : Nat) : Option Nat :=
  (allOcc P H).find? (fun i => decide (lo ≤ i))

/-- The leftmost sequence of occurrences taken one after the other: the
smallest occurrence at or after `lo`, then the smallest one at or after its
end, and so on (at most `k` of them). -/
def greedySeq (P H : List Byte) : Nat → Nat → List Nat
  | 0, _ => []
  | k + 1, lo =>
    match nextOcc P H lo with
    | none => []
    | some m => m :: greedySeq P H k (m + P.length)

/-! ## Occurrences and the left-to-right selection -/

theorem occursAt_iff (P H : List Byte) (i : Nat) :
    occursAt P H i ↔ ∀ j, j < P.length → H[i + j]? = P[j]? := by
  unfold occursAt
  constructor
  · intro h j hj
    rw [← h]
    simp [List.getElem?_take, hj, List.getElem?_drop]
  · intro h
    apply List.ext_getElem?
    intro j
    by_cases hj : j < P.length
    · rw [← h j hj]
      simp [List.getElem?_take, hj, List.getElem?_drop]
    · have h1 : P[j]? = none := List.getElem?_eq_none (by omega)
      have h2 : (List.take P.length (List.drop i H))[j]? = none :=
        List.getElem?_eq_none (by simp; omega)
      rw [h1, h2]

theorem occursAt_bound {P H : List Byte} {i : Nat} (hP : 0 < P.length)
    (h : occursAt P H i) : i + P.length ≤ H.length := by
  unfold occursAt at h
  have := congrArg List.length h
  simp at this
  omega

theorem mem_allOcc {P H : List Byte} {i : Nat} :
    i ∈ allOcc P H ↔ i + P.length ≤ H.length ∧ occursAt P H i := by
  unfold allOcc
  simp [List.mem_filter, List.mem_range]
  intro _
  omega

theorem allOcc_sorted (P H : List Byte) : (allOcc P H).Sorted (· < ·) := by
  unfold allOcc
  exact (List.sorted_lt_range _).filter _

theorem thin_congr (n : Nat) : ∀ (L : List Nat) (lo lo2 : Nat),
    (∀ x ∈ L, lo ≤ x ↔ lo2 ≤ x) → thin n L lo = thin n L lo2 := by
  intro L
  induction L with
  | nil => intros; rfl
  | cons x xs ih =>
    intro lo lo2 h
    have hx := h x (List.mem_cons_self _ _)
    have hxs : ∀ y ∈ xs, lo ≤ y ↔ lo2 ≤ y := fun y hy => h y (List.mem_cons_of_mem _ hy)
    by_cases hc : lo ≤ x
    · simp [thin, hc, hx.mp hc]
    · have hc2 : ¬ lo2 ≤ x := fun h2 => hc (hx.mpr h2)
      simp [thin, hc, hc2]
      exact ih lo lo2 hxs

theorem thin_hit (n : Nat) (hn : 0 < n) : ∀ (L : List Nat) (a : Nat),
    L.Sorted (· < ·) → a ∈ L → thin n L a = a :: thin n L (a + n) := by
  intro L
  induction L with
  | nil => intro a _ h; simp at h
  | cons x xs ih =>
    intro a hs hmem
    have hs2 := List.sorted_cons.mp hs
    rcases List.mem_cons.mp hmem with rfl | hin
    · have : ¬ a + n ≤ a := by omega
      simp [thin, this]
    · have hlt := hs2.1 a hin
      have h1 : ¬ a ≤ x := by omega
      have h2 : ¬ a + n ≤ x := by omega
      simp [thin, h1, h2]
      exact ih a hs2.2 hin

theorem thin_none (n : Nat) : ∀ (L : List Nat) (lo : Nat),
    (∀ x ∈ L, x < lo) → thin n L lo = [] := by
  intro L
  induction L with
  | nil => intros; rfl
  | cons x xs ih =>
    intro lo h
    have hx := h x (List.mem_cons_self _ _)
    have h1 : ¬ lo ≤ x := by omega
    simp [thin, h1]
    exact ih lo (fun y hy => h y (List.mem_cons_of_mem _ hy))

/-- No occurrence starts in `[a, a2)`: thinning from `a` and from `a2` agree. -/
theorem thin_skip (P H : List Byte) (a a2 : Nat) (hle : a ≤ a2)
    (h : ∀ t, a ≤ t → t < a2 → ¬ occursAt P H t) :
    thin P.length (allOcc P H) a = thin P.length (allOcc P H) a2 := by
  apply thin_congr
  intro x hx
  have hocc := (mem_allOcc.mp hx).2
  constructor
  · intro hax
    by_contra hc
    exact h x hax (by omega) hocc
  · intro h2; omega

theorem thin_past (P H : List Byte) (a : Nat) (h : H.length < a + P.length) :
    thin P.length (allOcc P H) a = [] := by
  apply thin_none
  intro x hx
  have := (mem_allOcc.mp hx).1
  omega

theorem getD_of_getElem_some {l : List Byte} {i : Nat} {b : Byte} (h : l[i]? = some b) :
    l.getD i 0 = b := by
  simp [List.getD, h]

theorem lt_of_getElem_eq {l m : List Byte} {i j : Nat} (h : l[i]? = m[j]?)
    (hj : j < m.length) : i < l.length := by
  by_contra hc
  rw [List.getElem?_eq_none (by omega), List.getElem?_eq_getElem hj] at h
  simp at h

theorem scan_eq_recordAll (S : BMHSearchState) (hay : List Byte) (ok : TableOk S) :
    ∀ fuel a npos fa nf last, npos < S.nlen →
      (∀ j, npos < j → j < S.nlen → hay[a + j]? = S.needle[j]?) →
      (hay.length - a) * S.nlen + npos + 1 ≤ fuel →
      scan S hay fuel (a + npos) npos fa nf last
        = recordAll S (thin S.needle.length (allOcc S.needle hay) a) fa nf last := by
  intro fuel
  induction fuel with
  | zero => intro a npos fa nf last _ _ h; omega
  | succ fuel ih =>
    intro a npos fa nf last hnp hinv hfuel
    have hlen := ok.len
    have hpos := ok.pos
    rw [scan]
    by_cases hlt : a + npos < hay.length
    · have hh : hay[a + npos]? = some (hay.getD (a + npos) 0) := by
        simp [List.getD, List.getElem?_eq_getElem hlt]
      have hn : S.needle[npos]? = some (S.needle.getD npos 0) := by
        simp [List.getD, List.getElem?_eq_getElem (show npos < S.needle.length by omega)]
      by_cases heq : hay.getD (a + npos) 0 = S.needle.getD npos 0
      · rw [if_pos ⟨hlt, heq⟩]
        by_cases h0 : npos = 0
        · subst h0
          rw [if_pos rfl]
          have hall : ∀ j, j < S.needle.length → hay[a + j]? = S.needle[j]? := by
            intro j hj
            rcases Nat.eq_zero_or_pos j with rfl | hj0
            · rw [hh, hn, heq]
            · exact hinv j hj0 (by omega)
          have hocc : occursAt S.needle hay a := (occursAt_iff _ _ _).mpr hall
          have hb := occursAt_bound (by omega) hocc
          have hmem : a ∈ allOcc S.needle hay := mem_allOcc.mpr ⟨hb, hocc⟩
          rw [thin_hit _ (by omega) _ _ (allOcc_sorted _ _) hmem, recordAll]
          simp only [Nat.add_zero]
          by_cases hcap : nf + 1 > S.max_find
          · rw [if_pos hcap, if_pos hcap]
          · rw [if_neg hcap, if_neg hcap]
            have e1 : a + S.nlen + S.nlen - 1 = (a + S.needle.length) + (S.nlen - 1) := by omega
            rw [e1]
            apply ih
            · omega
            · intro j h1 h2; omega
            · have e2 : hay.length - a = (hay.length - (a + S.needle.length)) + S.nlen := by omega
              rw [e2] at hfuel
              have e3 : S.nlen ≤ S.nlen * S.nlen := Nat.le_mul_of_pos_left _ hpos
              rw [Nat.add_mul] at hfuel
              omega
        · rw [if_neg h0]
          have e1 : a + npos - 1 = a + (npos - 1) := by omega
          rw [e1]
          apply ih
          · omega
          · intro j h1 h2
            by_cases hj : j = npos
            · subst hj; rw [hh, hn, heq]
            · exact hinv j (by omega) h2
          · omega
      · have hcond : ¬ (a + npos < hay.length ∧ hay.getD (a + npos) 0 = S.needle.getD npos 0) :=
          fun h => heq h.2
        rw [if_neg hcond, if_neg (by omega)]
        have hocc_le := ok.occ_le (hay.getD (a + npos) 0)
        generalize hsk : max (S.nlen - npos) (S.occ (hay.getD (a + npos) 0)) = sk
        have hsk1 : S.nlen - npos ≤ sk := by rw [← hsk]; exact Nat.le_max_left _ _
        have hsk2 : sk ≤ S.nlen := by rw [← hsk]; exact Nat.max_le.mpr ⟨by omega, hocc_le⟩
        have hsk3 : sk = S.nlen - npos ∨ sk = S.occ (hay.getD (a + npos) 0) := by
          rw [← hsk]; rcases Nat.le_total (S.nlen - npos) (S.occ (hay.getD (a + npos) 0)) with h | h
          · right; exact Nat.max_eq_right h
          · left; exact Nat.max_eq_left h
        have hno : ∀ t, a ≤ t → t < a + npos + sk - (S.nlen - 1) → ¬ occursAt S.needle hay t := by
          intro t hat hta hocc
          rw [occursAt_iff] at hocc
          have hj := hocc (a + npos - t) (by omega)
          have e : t + (a + npos - t) = a + npos := by omega
          rw [e, hh] at hj
          by_cases hd : t = a
          · subst hd
            have e2 : t + npos - t = npos := by omega
            rw [e2, hn] at hj
            exact heq (Option.some.inj hj)
          · have := ok.occ_at _ _ hj.symm
            omega
        rw [thin_skip S.needle hay a (a + npos + sk - (S.nlen - 1)) (by omega) hno]
        by_cases hin : a + npos + sk < hay.length
        · rw [if_pos hin]
          have e1 : a + npos + sk = (a + npos + sk - (S.nlen - 1)) + (S.nlen - 1) := by omega
          rw [e1]
          have e4 : a + npos + sk - (S.nlen - 1) + (S.nlen - 1) - (S.nlen - 1)
              = a + npos + sk - (S.nlen - 1) := by omega
          rw [e4]
          apply ih
          · omega
          · intro j h1 h2; omega
          · have e2 : hay.length - a = (hay.length - (a + npos + sk - (S.nlen - 1))) +
                (npos + sk - (S.nlen - 1)) := by omega
            rw [e2, Nat.add_mul] at hfuel
            have e3 : S.nlen ≤ (npos + sk - (S.nlen - 1)) * S.nlen :=
              Nat.le_mul_of_pos_left _ (by omega)
            omega
        · rw [if_neg hin, thin_past _ _ _ (by omega), recordAll]
    · have hnp1 : npos = S.nlen - 1 := by
        by_contra hc
        have := lt_of_getElem_eq (hinv (S.nlen - 1) (by omega) (by omega)) (by omega)
        omega
      rw [thin_past _ _ _ (by omega), recordAll]
      have hcond : ¬ (a + npos < hay.length ∧ hay.getD (a + npos) 0 = S.needle.getD npos 0) :=
        fun h => hlt h.1
      rw [if_neg hcond]
      by_cases hgt : a + npos > hay.length
      · rw [if_pos hgt]
      · rw [if_neg hgt]
        have : ¬ (a + npos + max (S.nlen - npos) (S.occ (hay.getD (a + npos) 0)) < hay.length) := by
          have := Nat.le_max_left (S.nlen - npos) (S.occ (hay.getD (a + npos) 0))
          omega
        simp only [this, if_false]
theorem populate_not_mem (c : Byte) : ∀ (cs : List Byte) (b : Nat) (occ : Byte → Nat),
    c ∉ cs → populate cs b occ c = occ c := by
  intro cs
  induction cs with
  | nil => intros; rfl
  | cons x xs ih =>
    intro b occ h
    have hx : c ≠ x := fun e => h (e ▸ List.mem_cons_self _ _)
    have hxs : c ∉ xs := fun e => h (List.mem_cons_of_mem _ e)
    rw [populate, ih _ _ hxs, Function.update_noteq hx]

theorem populate_rightmost (c : Byte) : ∀ (cs : List Byte) (b : Nat) (occ : Byte → Nat) (i : Nat),
    cs[i]? = some c → (∀ j, i < j → cs[j]? ≠ some c) →
    populate cs b occ c = b - 1 - i := by
  intro cs
  induction cs with
  | nil => intro b occ i h; simp at h
  | cons x xs ih =>
    intro b occ i h hr
    rw [populate]
    cases i with
    | zero =>
      simp at h
      subst h
      have hxs : x ∉ xs := by
        intro hm
        obtain ⟨k, hk, hk2⟩ := List.getElem_of_mem hm
        exact hr (k + 1) (by omega) (by simp [List.getElem?_eq_getElem hk, hk2])
      rw [populate_not_mem _ _ _ _ hxs, Function.update_same]
      omega
    | succ i =>
      simp at h
      rw [ih (b - 1) _ i h (fun j hj hc => hr (j + 1) (by omega) (by simpa using hc))]
      omega

theorem populate_le_at (c : Byte) : ∀ (cs : List Byte) (b : Nat) (occ : Byte → Nat) (j : Nat),
    cs[j]? = some c → populate cs b occ c ≤ b - 1 - j := by
  intro cs
  induction cs with
  | nil => intro b occ j h; simp at h
  | cons x xs ih =>
    intro b occ j h
    rw [populate]
    cases j with
    | zero =>
      simp at h
      subst h
      by_cases hm : x ∈ xs
      · obtain ⟨k, hk, hk2⟩ := List.getElem_of_mem hm
        have := ih (b - 1) (Function.update occ x (b - 1)) k
          (by simp [List.getElem?_eq_getElem hk, hk2])
        omega
      · rw [populate_not_mem _ _ _ _ hm, Function.update_same]
        omega
    | succ j =>
      simp at h
      have := ih (b - 1) (Function.update occ x (b - 1)) j h
      omega

theorem populate_zero (c : Byte) : ∀ (cs : List Byte) (occ : Byte → Nat),
    populate cs cs.length occ c = 0 → cs.getLast? = some c ∨ occ c = 0 := by
  intro cs
  induction cs with
  | nil => intro occ h; exact Or.inr h
  | cons x xs ih =>
    intro occ h
    rw [populate] at h
    simp only [List.length_cons, Nat.add_sub_cancel] at h
    rcases ih _ h with h1 | h1
    · left
      cases xs with
      | nil => simp at h1
      | cons y ys => simpa using h1
    · by_cases hx : c = x
      · subst hx
        rw [Function.update_same] at h1
        left
        have : xs = [] := List.eq_nil_of_length_eq_zero h1
        subst this
        rfl
      · rw [Function.update_noteq hx] at h1
        exact Or.inr h1

/-- The state `BMHSearch_init` builds for a needle that is not empty. -/
theorem init_ok {P : List Byte} {c : Nat} {S : BMHSearchState}
    (h : BMHSearch_init P c = .ok S) :
    P ≠ [] ∧ S = fresh P c := by
  unfold BMHSearch_init at h
  by_cases hP : P.length ≤ 0
  · simp [hP] at h
  · simp only [hP, if_false] at h
    injection h with h
    refine ⟨?_, h.symm⟩
    intro e; subst e; simp at hP

theorem init_fresh {P : List Byte} (c : Nat) (hP : P ≠ []) :
    BMHSearch_init P c = .ok (fresh P c) := by
  have : ¬ P.length ≤ 0 := by
    have := List.length_pos.mpr hP
    omega
  simp [BMHSearch_init, this, fresh]

theorem fresh_tableOk (P : List Byte) (c : Nat) (hP : P ≠ []) : TableOk (fresh P c) := by
  have hpos := List.length_pos.mpr hP
  refine ⟨rfl, hpos, ?_, ?_, ?_⟩
  · intro b
    show populate P P.length (fun _ => P.length) b ≤ P.length
    by_cases hm : b ∈ P
    · obtain ⟨k, hk, hk2⟩ := List.getElem_of_mem hm
      have := populate_le_at b P P.length (fun _ => P.length) k
        (by simp [List.getElem?_eq_getElem hk, hk2])
      omega
    · rw [populate_not_mem _ _ _ _ hm]
  · intro j b h
    exact populate_le_at b P P.length (fun _ => P.length) j h
  · intro b hb
    rcases populate_zero b P (fun _ => P.length) hb with h | h
    · show P[P.length - 1]? = some b
      rw [← h, List.getLast?_eq_getElem?]
    · omega
theorem store_count : ∀ (vs : List Nat) (fa : List Nat) (nf : Nat),
    (store fa nf vs).2 = nf + vs.length := by
  intro vs
  induction vs with
  | nil => intros; rfl
  | cons v vs ih => intro fa nf; rw [store, ih]; simp; omega

theorem put_length (fa : List Nat) (nf v : Nat) :
    fa.length ≤ (put fa nf v).length ∧ nf + 1 ≤ (put fa nf v).length := by
  unfold put
  by_cases h : nf < fa.length
  · rw [if_pos h, List.length_set]
    omega
  · rw [if_neg h]
    simp
    omega

theorem put_take (fa : List Nat) (nf v : Nat) (h : nf ≤ fa.length) :
    (put fa nf v).take (nf + 1) = fa.take nf ++ [v] := by
  unfold put
  by_cases hlt : nf < fa.length
  · rw [if_pos hlt]
    apply List.ext_getElem?
    intro i
    by_cases hi : i < nf
    · rw [List.getElem?_take_of_lt (by omega), List.getElem?_set_ne (by omega),
        List.getElem?_append_left (by simp; omega), List.getElem?_take_of_lt hi]
    · by_cases hi2 : i = nf
      · subst hi2
        rw [List.getElem?_take_of_lt (by omega), List.getElem?_set_self hlt,
          List.getElem?_append_right (by simp)]
        simp [Nat.min_eq_left (Nat.le_of_lt hlt)]
      · rw [List.getElem?_eq_none (by simp; omega), List.getElem?_eq_none (by simp; omega)]
  · have e : nf = fa.length := by omega
    subst e
    rw [if_neg hlt]
    simp

theorem range_map_getD (l : List Nat) (n : Nat) (h : n ≤ l.length) :
    (List.range n).map (fun i => l.getD i 0) = l.take n := by
  apply List.ext_getElem?
  intro i
  by_cases hi : i < n
  · rw [List.getElem?_take_of_lt hi, List.getElem?_map, List.getElem?_range hi]
    simp [List.getD, List.getElem?_eq_getElem (show i < l.length by omega)]
  · rw [List.getElem?_eq_none (by simp; omega), List.getElem?_eq_none (by simp; omega)]

theorem pending_eq_take (S : BMHSearchState) (h : S.nfound ≤ S.found_at.length) :
    pending S = S.found_at.take S.nfound :=
  range_map_getD S.found_at S.nfound h

theorem store_append : ∀ (us vs : List Nat) (fa : List Nat) (nf : Nat),
    store fa nf (us ++ vs) = store (store fa nf us).1 (store fa nf us).2 vs := by
  intro us
  induction us with
  | nil => intros; rfl
  | cons u us ih => intro vs fa nf; simp only [List.cons_append, store]; exact ih _ _ _

theorem store_take : ∀ (vs : List Nat) (fa : List Nat) (nf : Nat), nf ≤ fa.length →
    (store fa nf vs).1.take (nf + vs.length) = fa.take nf ++ vs ∧
    nf + vs.length ≤ (store fa nf vs).1.length := by
  intro vs
  induction vs with
  | nil =>
    intro fa nf h
    simp only [store, List.length_nil, Nat.add_zero, List.append_nil]
    exact ⟨trivial, h⟩
  | cons v vs ih =>
    intro fa nf h
    rw [store]
    have := ih (put fa nf v) (nf + 1) (put_length fa nf v).2
    rw [put_take fa nf v h] at this
    simp only [List.length_cons]
    rw [show nf + (vs.length + 1) = nf + 1 + vs.length by omega]
    exact ⟨by rw [this.1]; simp, this.2⟩

theorem recordAll_ok (S : BMHSearchState) : ∀ (ms fa : List Nat) (nf last : Nat),
    ms = [] ∨ nf + ms.length ≤ S.max_find →
    recordAll S ms fa nf last
      = .finished (store fa nf (ms.map (· + S.htotal))).1 (nf + ms.length) (lastOr last ms) := by
  intro ms
  induction ms with
  | nil => intros; rfl
  | cons m ms ih =>
    intro fa nf last h
    have h1 : nf + (ms.length + 1) ≤ S.max_find := by
      rcases h with h | h
      · simp at h
      · simpa using h
    rw [recordAll, if_neg (by omega), ih _ _ _ (Or.inr (by omega))]
    simp only [List.map_cons, store, lastOr, List.length_cons]
    congr 1
    omega

theorem recordAll_raised (S : BMHSearchState) : ∀ (ms fa : List Nat) (nf last : Nat),
    ms ≠ [] → S.max_find < nf + ms.length →
    ∃ fa2 nf2, recordAll S ms fa nf last = .raised fa2 nf2 ∧ S.max_find < nf2 := by
  intro ms
  induction ms with
  | nil => intro fa nf last h; exact absurd rfl h
  | cons m ms ih =>
    intro fa nf last _ h
    rw [recordAll]
    by_cases hc : nf + 1 > S.max_find
    · rw [if_pos hc]; exact ⟨_, _, rfl, hc⟩
    · rw [if_neg hc]
      have hms : ms ≠ [] := by
        intro e; subst e; simp at h; omega
      exact ih _ _ _ hms (by simp at h; omega)

theorem carryCheck_eq_store (S : BMHSearchState) (hay : List Byte) :
    carryCheck S hay = store S.found_at S.nfound (carried S hay) := by
  unfold carryCheck carried
  by_cases h1 : S.skip ≠ 0
  · by_cases h2 : hay.take (S.nlen - S.skip) = (S.needle.drop S.skip).take (S.nlen - S.skip)
    · simp [h1, h2, store]
    · simp [h1, h2, store]
  · simp [h1, store]

theorem find_eq (S : BMHSearchState) (hay : List Byte) (ok : TableOk S)
    (hlen : S.nlen ≤ hay.length) :
    BMHSearch_find S hay =
      match recordAll S (greedyOcc S.needle hay) (carryCheck S hay).1 (carryCheck S hay).2 0 with
      | .diverged =>
        ⟨{ S with found_at := (carryCheck S hay).1, nfound := (carryCheck S hay).2 }, .diverged⟩
      | .raised found_at nfound =>
        ⟨{ S with found_at := found_at, nfound := nfound }, .raised .tooManyFound⟩
      | .finished found_at nfound last =>
        ⟨{ S with found_at := found_at, nfound := nfound,
                  skip := trailing S hay nfound last, htotal := S.htotal + hay.length },
         .returned nfound⟩ := by
  have hpos := ok.pos
  have h := scan_eq_recordAll S hay ok (hay.length * S.nlen + S.nlen) 0 (S.nlen - 1)
    (carryCheck S hay).1 (carryCheck S hay).2 0 (by omega) (by intro j h1 h2; omega)
    (by simp only [Nat.sub_zero]; omega)
  rw [Nat.zero_add] at h
  unfold BMHSearch_find
  simp only [if_neg (show ¬ S.nlen > hay.length by omega), if_neg (show ¬ S.nlen ≤ 0 by omega),
    if_pos (show S.nlen - 1 < hay.length by omega), h]
  rfl

theorem find_returned (S : BMHSearchState) (hay : List Byte) (ok : TableOk S)
    (hlen : S.nlen ≤ hay.length)
    (hcap : greedyOcc S.needle hay = [] ∨
      S.nfound + (reported S hay).length ≤ S.max_find) :
    BMHSearch_find S hay =
      ⟨{ S with found_at := (store S.found_at S.nfound (reported S hay)).1,
                nfound := S.nfound + (reported S hay).length,
                skip := trailing S hay (S.nfound + (reported S hay).length)
                  (lastOr 0 (greedyOcc S.needle hay)),
                htotal := S.htotal + hay.length },
       .returned (S.nfound + (reported S hay).length)⟩ := by
  have hc2 : (carryCheck S hay).2 = S.nfound + (carried S hay).length := by
    rw [carryCheck_eq_store, store_count]
  have hlen2 : (reported S hay).length = (carried S hay).length + (greedyOcc S.needle hay).length := by
    simp [reported]
  rw [find_eq S hay ok hlen, recordAll_ok]
  · simp only []
    have e1 : (store (carryCheck S hay).1 (carryCheck S hay).2
        (List.map (fun x => x + S.htotal) (greedyOcc S.needle hay))).1
        = (store S.found_at S.nfound (reported S hay)).1 := by
      rw [reported, store_append, carryCheck_eq_store]
    have e2 : (carryCheck S hay).2 + (greedyOcc S.needle hay).length
        = S.nfound + (reported S hay).length := by omega
    rw [e1, e2]
  · rcases hcap with h | h
    · exact Or.inl h
    · exact Or.inr (by omega)

theorem find_raised (S : BMHSearchState) (hay : List Byte) (ok : TableOk S)
    (hlen : S.nlen ≤ hay.length) (hne : greedyOcc S.needle hay ≠ [])
    (hcap : S.max_find < S.nfound + (reported S hay).length) :
    ∃ fa nf, BMHSearch_find S hay
        = ⟨{ S with found_at := fa, nfound := nf }, .raised .tooManyFound⟩ ∧
      S.max_find < nf := by
  have hc2 : (carryCheck S hay).2 = S.nfound + (carried S hay).length := by
    rw [carryCheck_eq_store, store_count]
  have hlen2 : (reported S hay).length = (carried S hay).length + (greedyOcc S.needle hay).length := by
    simp [reported]
  obtain ⟨fa, nf, h1, h2⟩ := recordAll_raised S (greedyOcc S.needle hay) (carryCheck S hay).1
    (carryCheck S hay).2 0 hne (by omega)
  refine ⟨fa, nf, ?_, h2⟩
  rw [find_eq S hay ok hlen, h1]
theorem thin_subset (n : Nat) : ∀ (L : List Nat) (lo : Nat), ∀ x ∈ thin n L lo, x ∈ L := by
  intro L
  induction L with
  | nil => intro lo x h; simp [thin] at h
  | cons y ys ih =>
    intro lo x h
    rw [thin] at h
    by_cases hc : lo ≤ y
    · rw [if_pos hc] at h
      rcases List.mem_cons.mp h with h | h
      · exact h ▸ List.mem_cons_self _ _
      · exact List.mem_cons_of_mem _ (ih _ x h)
    · rw [if_neg hc] at h
      exact List.mem_cons_of_mem _ (ih _ x h)

theorem thin_all (n : Nat) : ∀ (L : List Nat) (lo : Nat),
    L.Pairwise (fun i j => i + n ≤ j) → (∀ x ∈ L, lo ≤ x) → thin n L lo = L := by
  intro L
  induction L with
  | nil => intros; rfl
  | cons y ys ih =>
    intro lo hp hlo
    have hp2 := List.pairwise_cons.mp hp
    rw [thin, if_pos (hlo y (List.mem_cons_self _ _)), ih _ hp2.2 hp2.1]

theorem greedyOcc_occurs {P H : List Byte} {i : Nat} (h : i ∈ greedyOcc P H) :
    occursAt P H i :=
  (mem_allOcc.mp (thin_subset _ _ _ i h)).2

theorem find_pending (S : BMHSearchState) (hay : List Byte) (ok : TableOk S)
    (hlen : S.nlen ≤ hay.length)
    (hcap : greedyOcc S.needle hay = [] ∨
      S.nfound + (reported S hay).length ≤ S.max_find)
    (hb : S.nfound ≤ S.found_at.length) :
    pending (BMHSearch_find S hay).state = pending S ++ reported S hay ∧
    (BMHSearch_find S hay).state.nfound ≤ (BMHSearch_find S hay).state.found_at.length := by
  have hst := store_take (reported S hay) S.found_at S.nfound hb
  have hb2 : (BMHSearch_find S hay).state.nfound
      ≤ (BMHSearch_find S hay).state.found_at.length := by
    rw [find_returned S hay ok hlen hcap]
    exact hst.2
  refine ⟨?_, hb2⟩
  rw [pending_eq_take _ hb2, pending_eq_take S hb, find_returned S hay ok hlen hcap]
  exact hst.1

theorem fresh_reported (P H : List Byte) (c : Nat) :
    reported (fresh P c) H = greedyOcc P H := by
  simp [reported, carried, fresh]

theorem fresh_find_greedy (P H : List Byte) (c : Nat) (hP : P ≠ [])
    (hlen : P.length ≤ H.length) (hcap : (greedyOcc P H).length ≤ c) :
    (BMHSearch_find (fresh P c) H).outcome = .returned (greedyOcc P H).length ∧
    (BMHSearch_pop (BMHSearch_find (fresh P c) H).state).1 = greedyOcc P H := by
  have ok := fresh_tableOk P c hP
  have hcap2 : greedyOcc (fresh P c).needle H = [] ∨
      (fresh P c).nfound + (reported (fresh P c) H).length ≤ (fresh P c).max_find := by
    right
    rw [fresh_reported]
    simpa [fresh] using hcap
  refine ⟨?_, ?_⟩
  · rw [find_returned _ H ok hlen hcap2, fresh_reported]
    simp [fresh]
  · have := (find_pending _ H ok hlen hcap2 (Nat.zero_le _)).1
    rw [fresh_reported] at this
    have e : pending (fresh P c) = [] := rfl
    rw [e, List.nil_append] at this
    exact this

/-- C1 (amended).  For a needle `P` that is not empty and a chunk `H` at least
as long, `BMHSearch_find` on the state built by `BMHSearch_init`, with room for
the results, returns and leaves in the result buffer exactly `greedyOcc P H`:
the start offsets of the occurrences of `P` in `H` from left to right, leaving
out each occurrence that starts before the end of the previous one kept.
Every offset left is an occurrence, and when no two occurrences of `P` in `H`
overlap the buffer holds all of them. -/
theorem find_single_chunk_greedy (P H : List Byte) (c : Nat) (S : BMHSearchState)
    (hinit : BMHSearch_init P c = .ok S) (hlen : P.length ≤ H.length)
    (hcap : (greedyOcc P H).length ≤ c) :
    (BMHSearch_find S H).outcome = .returned (greedyOcc P H).length ∧
    (BMHSearch_pop (BMHSearch_find S H).state).1 = greedyOcc P H ∧
    (∀ i ∈ greedyOcc P H, occursAt P H i) ∧
    ((allOcc P H).Pairwise (fun i j => i + P.length ≤ j) → greedyOcc P H = allOcc P H) := by
  obtain ⟨hP, rfl⟩ := init_ok hinit
  have h := fresh_find_greedy P H c hP hlen hcap
  exact ⟨h.1, h.2, fun i hi => greedyOcc_occurs hi,
    fun hp => thin_all _ _ _ hp (fun x _ => Nat.zero_le x)⟩

/-- Witness for `find_single_chunk_greedy`: needle "ab", chunk "abxab". -/
theorem find_single_chunk_greedy_witness :
    BMHSearch_init [97, 98] 2 = .ok (fresh [97, 98] 2) ∧
    [97, 98].length ≤ [97, 98, 120, 97, 98].length ∧
    (greedyOcc [97, 98] [97, 98, 120, 97, 98]).length ≤ 2 ∧
    (BMHSearch_find (fresh [97, 98] 2) [97, 98, 120, 97, 98]).outcome = .returned 2 ∧
    (BMHSearch_pop (BMHSearch_find (fresh [97, 98] 2) [97, 98, 120, 97, 98]).state).1 = [0, 3] :=
  have h := find_single_chunk_greedy [97, 98] [97, 98, 120, 97, 98] 2 (fresh [97, 98] 2)
    rfl (by decide) (by decide)
  ⟨rfl, by decide, by decide, h.1, h.2.1⟩

/-- C1 (as stated) fails: for the needle "aa" and the chunk "aaaa", with room
for three results, the needle occurs at offset 1 but the buffer holds 0 and 2
only. -/
theorem find_single_chunk_overlap_missed :
    BMHSearch_init [97, 97] 3 = .ok (fresh [97, 97] 3) ∧
    (BMHSearch_find (fresh [97, 97] 3) [97, 97, 97, 97]).outcome = .returned 2 ∧
    (BMHSearch_pop (BMHSearch_find (fresh [97, 97] 3) [97, 97, 97, 97]).state).1 = [0, 2] ∧
    occursAt [97, 97] [97, 97, 97, 97] 1 ∧
    1 ∉ (BMHSearch_pop (BMHSearch_find (fresh [97, 97] 3) [97, 97, 97, 97]).state).1 := by
  refine ⟨rfl, ?_, ?_, ?_, ?_⟩ <;> decide
/-- C5.  After `BMHSearch_init` with a needle `P` that is not empty, for every
byte `b`: `occ[b]` is the length of `P` when `b` does not occur in `P`; it is
`|P| - 1 - i` when `i` is the index of the rightmost occurrence of `b` in `P`;
and in every case `occ[b]` is at most the length of `P`. -/
theorem init_skip_table (P : List Byte) (c : Nat) (S : BMHSearchState)
    (hinit : BMHSearch_init P c = .ok S) (b : Byte) :
    (b ∉ P → S.occ b = P.length) ∧
    (∀ i, P[i]? = some b → (∀ j, i < j → P[j]? ≠ some b) → S.occ b = P.length - 1 - i) ∧
    S.occ b ≤ P.length := by
  obtain ⟨hP, rfl⟩ := init_ok hinit
  refine ⟨?_, ?_, ?_⟩
  · intro hb
    exact populate_not_mem b P P.length (fun _ => P.length) hb
  · intro i hi hr
    exact populate_rightmost b P P.length (fun _ => P.length) i hi hr
  · exact (fresh_tableOk P c hP).occ_le b

/-- Witness for `init_skip_table`: the needle "aba" gives `occ['b'] = 1`,
`occ['x'] = 3` and `occ['a'] <= 3`. -/
theorem init_skip_table_witness :
    BMHSearch_init [97, 98, 97] 1 = .ok (fresh [97, 98, 97] 1) ∧
    (fresh [97, 98, 97] 1).occ 120 = 3 ∧
    (fresh [97, 98, 97] 1).occ 98 = 3 - 1 - 1 ∧
    (fresh [97, 98, 97] 1).occ 97 ≤ 3 :=
  ⟨rfl,
   (init_skip_table [97, 98, 97] 1 (fresh [97, 98, 97] 1) rfl 120).1 (by decide),
   (init_skip_table [97, 98, 97] 1 (fresh [97, 98, 97] 1) rfl 98).2.1 1 rfl
     (by
       intro j hj
       rcases Nat.lt_or_ge j 3 with h | h
       · have : j = 2 := by omega
         subst this; decide
       · rw [List.getElem?_eq_none (by simpa using h)]; simp),
   (init_skip_table [97, 98, 97] 1 (fresh [97, 98, 97] 1) rfl 97).2.2⟩

theorem find_consts (S : BMHSearchState) (hay : List Byte) :
    (BMHSearch_find S hay).state.needle = S.needle ∧
    (BMHSearch_find S hay).state.nlen = S.nlen ∧
    (BMHSearch_find S hay).state.occ = S.occ ∧
    (BMHSearch_find S hay).state.max_find = S.max_find := by
  unfold BMHSearch_find
  by_cases h1 : S.nlen > hay.length
  · simp [h1]
  · by_cases h2 : S.nlen ≤ 0
    · simp [h1, h2]
    · simp only [if_neg h1, if_neg h2]
      split <;> simp

theorem find_htotal (S : BMHSearchState) (hay : List Byte) :
    (∀ n, (BMHSearch_find S hay).outcome = .returned n →
      (BMHSearch_find S hay).state.htotal = S.htotal + hay.length) ∧
    ((∀ n, (BMHSearch_find S hay).outcome ≠ .returned n) →
      (BMHSearch_find S hay).state.htotal = S.htotal) := by
  unfold BMHSearch_find
  by_cases h1 : S.nlen > hay.length
  · simp [h1]
  · by_cases h2 : S.nlen ≤ 0
    · simp [h1, h2]
    · simp only [if_neg h1, if_neg h2]
      split <;> simp

theorem run_append (S : BMHSearchState) (ops : List Op) (op : Op) :
    run S (ops ++ [op]) = step (run S ops) op := by
  simp [run, List.foldl_append]

theorem step_consts (r : Run) (op : Op) :
    (step r op).state.needle = r.state.needle ∧
    (step r op).state.nlen = r.state.nlen ∧
    (step r op).state.occ = r.state.occ ∧
    (step r op).state.max_find = r.state.max_find := by
  cases op with
  | pop => simp [step, BMHSearch_pop]
  | find hay =>
    have := find_consts r.state hay
    simp only [step]
    split <;> exact this

theorem run_consts (S : BMHSearchState) (ops : List Op) :
    (run S ops).state.needle = S.needle ∧
    (run S ops).state.nlen = S.nlen ∧
    (run S ops).state.occ = S.occ ∧
    (run S ops).state.max_find = S.max_find := by
  induction ops using List.reverseRecOn with
  | nil => simp [run]
  | append_singleton ops op ih =>
    rw [run_append]
    have := step_consts (run S ops) op
    exact ⟨this.1.trans ih.1, this.2.1.trans ih.2.1, this.2.2.1.trans ih.2.2.1,
      this.2.2.2.trans ih.2.2.2⟩

/-- C9.  On every state reached from `BMHSearch_init` with the needle `P` by
any calls of `find` and `pop`, `BMHSearch_find` raises "Haystack can't be
smaller than needle." exactly when the chunk is shorter than `P`, and then
leaves the state as it was. -/
theorem find_too_small_iff (P : List Byte) (c : Nat) (S : BMHSearchState)
    (hinit : BMHSearch_init P c = .ok S) (ops : List Op) (hay : List Byte) :
    ((BMHSearch_find (run S ops).state hay).outcome = .raised .haystackTooSmall
      ↔ hay.length < P.length) ∧
    (hay.length < P.length → (BMHSearch_find (run S ops).state hay).state = (run S ops).state) := by
  obtain ⟨_, rfl⟩ := init_ok hinit
  have hn : (run (fresh P c) ops).state.nlen = P.length := (run_consts _ ops).2.1
  generalize (run (fresh P c) ops).state = T at hn
  unfold BMHSearch_find
  by_cases h1 : T.nlen > hay.length
  · simp only [if_pos h1]
    exact ⟨⟨fun _ => by omega, fun _ => trivial⟩, fun _ => trivial⟩
  · by_cases h2 : T.nlen ≤ 0
    · simp only [if_neg h1, if_pos h2]
      exact ⟨⟨fun h => by simp at h, fun h => by omega⟩, fun h => by omega⟩
    · simp only [if_neg h1, if_neg h2]
      refine ⟨⟨fun h => ?_, fun h => by omega⟩, fun h => by omega⟩
      exfalso
      revert h
      split <;> simp

/-- Witness for `find_too_small_iff`: needle "abc", after a chunk "xxab" and a
`pop`, the chunk "ab" is refused and the state stays as it was. -/
theorem find_too_small_iff_witness :
    BMHSearch_init [97, 98, 99] 2 = .ok (fresh [97, 98, 99] 2) ∧
    (BMHSearch_find (run (fresh [97, 98, 99] 2) [.find [120, 120, 97, 98], .pop]).state
      [97, 98]).outcome = .raised .haystackTooSmall ∧
    (BMHSearch_find (run (fresh [97, 98, 99] 2) [.find [120, 120, 97, 98], .pop]).state
      [97, 98]).state = (run (fresh [97, 98, 99] 2) [.find [120, 120, 97, 98], .pop]).state :=
  have h := find_too_small_iff [97, 98, 99] 2 (fresh [97, 98, 99] 2) rfl
    [.find [120, 120, 97, 98], .pop] [97, 98]
  ⟨rfl, h.1.mpr (by decide), h.2 (by decide)⟩

/-- C10.  After any calls of `find` and `pop` on a state built by
`BMHSearch_init`, `htotal` (the value of `BMHSearch_total`) is the sum of the
lengths of the chunks whose `find` returned, whatever was found and popped;
and `BMHSearch_pop` leaves `htotal` as it is. -/
theorem run_total_eq_fed (P : List Byte) (c : Nat) (S : BMHSearchState)
    (hinit : BMHSearch_init P c = .ok S) (ops : List Op) :
    BMHSearch_total (run S ops).state = ((run S ops).fed.map List.length).sum ∧
    ∀ T : BMHSearchState, BMHSearch_total (BMHSearch_pop T).2 = BMHSearch_total T := by
  obtain ⟨_, rfl⟩ := init_ok hinit
  refine ⟨?_, fun T => rfl⟩
  unfold BMHSearch_total
  induction ops using List.reverseRecOn with
  | nil => simp [run, fresh]
  | append_singleton ops op ih =>
    rw [run_append]
    cases op with
    | pop => simpa [step, BMHSearch_pop] using ih
    | find hay =>
      have hh := find_htotal (run (fresh P c) ops).state hay
      simp only [step]
      split
      · rename_i n hn
        simp [hh.1 n hn, ih]
      · rename_i hne
        simp only []
        rw [hh.2 (fun n hn => hne n hn), ih]

/-- Witness for `run_total_eq_fed`: needle "ab"; chunks "abab" (two matches),
a `pop`, "a" (refused) and "xyz" give a total of 7. -/
theorem run_total_eq_fed_witness :
    BMHSearch_init [97, 98] 4 = .ok (fresh [97, 98] 4) ∧
    BMHSearch_total (run (fresh [97, 98] 4)
      [.find [97, 98, 97, 98], .pop, .find [97], .find [120, 121, 122]]).state = 7 :=
  ⟨rfl, (run_total_eq_fed [97, 98] 4 (fresh [97, 98] 4) rfl
    [.find [97, 98, 97, 98], .pop, .find [97], .find [120, 121, 122]]).1.trans (by decide)⟩
/-- C2 fails on the code.  Needle "aab", chunks "xaa" and "abx": fed one
after the other with a `pop` after each, every call returns and nothing is
reported, while the single chunk "xaaabx" reports the occurrence at offset 2.
The trailing detection keeps the longest prefix "aa" only, and the
boundary-carry check then compares "b" with the first byte of "abx". -/
theorem chunk_split_loses_match :
    BMHSearch_init [97, 97, 98] 4 = .ok (fresh [97, 97, 98] 4) ∧
    (run (fresh [97, 97, 98] 4)
      [.find [120, 97, 97], .pop, .find [97, 98, 120], .pop]).failed = false ∧
    (run (fresh [97, 97, 98] 4)
      [.find [120, 97, 97], .pop, .find [97, 98, 120], .pop]).popped = [] ∧
    (run (fresh [97, 97, 98] 4) [.find ([120, 97, 97] ++ [97, 98, 120]), .pop]).failed = false ∧
    (run (fresh [97, 97, 98] 4) [.find ([120, 97, 97] ++ [97, 98, 120]), .pop]).popped = [2] := by
  refine ⟨rfl, ?_, ?_, ?_, ?_⟩ <;> decide

/-- C6 fails on the code.  Needle "ab", capacity 1: the chunks "aba" and "bxx"
are both accepted, the second one storing the boundary match without any test
of the counter, and leave `nfound = 2`.  Needle "a", capacity 1, chunk "aa":
the call raises "More than max requested needles found." after the counter
has already reached 2. -/
theorem nfound_exceeds_max_find :
    BMHSearch_init [97, 98] 1 = .ok (fresh [97, 98] 1) ∧
    (run (fresh [97, 98] 1) [.find [97, 98, 97], .find [98, 120, 120]]).failed = false ∧
    (run (fresh [97, 98] 1) [.find [97, 98, 97], .find [98, 120, 120]]).state.nfound = 2 ∧
    (run (fresh [97, 98] 1) [.find [97, 98, 97], .find [98, 120, 120]]).state.max_find = 1 ∧
    BMHSearch_init [97] 1 = .ok (fresh [97] 1) ∧
    (BMHSearch_find (fresh [97] 1) [97, 97]).outcome = .raised .tooManyFound ∧
    (BMHSearch_find (fresh [97] 1) [97, 97]).state.nfound = 2 ∧
    (BMHSearch_find (fresh [97] 1) [97, 97]).state.max_find = 1 := by
  refine ⟨rfl, ?_, ?_, ?_, rfl, ?_, ?_, ?_⟩ <;> decide

/-- C7 (amended).  When the needle `P` occurs in the chunk `H` at exactly
three offsets `a`, `b`, `d`, no two of the occurrences overlapping, then
`BMHSearch_find` on a state built with capacity 2 raises "More than max
requested needles found." with the counter at 3, and on a state built with a
capacity of at least 3 it returns 3 and leaves the three offsets in the
buffer. -/
theorem find_three_occurrences (P H : List Byte) (a b d cap : Nat) (S2 Sc : BMHSearchState)
    (hocc : allOcc P H = [a, b, d]) (hab : a + P.length ≤ b) (hbd : b + P.length ≤ d)
    (hinit2 : BMHSearch_init P 2 = .ok S2) (hinitc : BMHSearch_init P cap = .ok Sc)
    (hcap : 3 ≤ cap) :
    (BMHSearch_find S2 H).outcome = .raised .tooManyFound ∧
    (BMHSearch_find S2 H).state.nfound = 3 ∧
    (BMHSearch_find Sc H).outcome = .returned 3 ∧
    (BMHSearch_pop (BMHSearch_find Sc H).state).1 = [a, b, d] := by
  obtain ⟨hP, rfl⟩ := init_ok hinit2
  obtain ⟨_, rfl⟩ := init_ok hinitc
  have hg : greedyOcc P H = [a, b, d] := by
    unfold greedyOcc
    rw [hocc]
    apply thin_all
    · simp; omega
    · intro x _; omega
  have hlen : P.length ≤ H.length := by
    have : a ∈ allOcc P H := by rw [hocc]; simp
    have := (mem_allOcc.mp this).1
    omega
  have hc := fresh_find_greedy P H cap hP hlen (by rw [hg]; simpa using hcap)
  rw [hg] at hc
  refine ⟨?_, ?_, hc.1, hc.2⟩
  · rw [find_eq _ H (fresh_tableOk P 2 hP) hlen]
    simp [fresh, hg, recordAll, carryCheck]
  · rw [find_eq _ H (fresh_tableOk P 2 hP) hlen]
    simp [fresh, hg, recordAll, carryCheck]

/-- Witness for `find_three_occurrences`: needle "ab", chunk "ababab",
capacities 2 and 3. -/
theorem find_three_occurrences_witness :
    allOcc [97, 98] [97, 98, 97, 98, 97, 98] = [0, 2, 4] ∧
    BMHSearch_init [97, 98] 2 = .ok (fresh [97, 98] 2) ∧
    BMHSearch_init [97, 98] 3 = .ok (fresh [97, 98] 3) ∧
    (BMHSearch_find (fresh [97, 98] 2) [97, 98, 97, 98, 97, 98]).outcome
      = .raised .tooManyFound ∧
    (BMHSearch_find (fresh [97, 98] 3) [97, 98, 97, 98, 97, 98]).outcome = .returned 3 ∧
    (BMHSearch_pop (BMHSearch_find (fresh [97, 98] 3) [97, 98, 97, 98, 97, 98]).state).1
      = [0, 2, 4] :=
  have h := find_three_occurrences [97, 98] [97, 98, 97, 98, 97, 98] 0 2 4 3
    (fresh [97, 98] 2) (fresh [97, 98] 3) (by decide) (by decide) (by decide) rfl rfl (by decide)
  ⟨by decide, rfl, rfl, h.1, h.2.2.1, h.2.2.2⟩

/-- C7 (as stated) fails: the needle "aa" occurs in the chunk "aaaa" at
exactly the three offsets 0, 1, 2, and `BMHSearch_find` on a state built with
capacity 2 returns 2 instead of raising. -/
theorem find_three_overlapping_no_raise :
    allOcc [97, 97] [97, 97, 97, 97] = [0, 1, 2] ∧
    BMHSearch_init [97, 97] 2 = .ok (fresh [97, 97] 2) ∧
    (BMHSearch_find (fresh [97, 97] 2) [97, 97, 97, 97]).outcome = .returned 2 ∧
    (BMHSearch_find (fresh [97, 97] 2) [97, 97, 97, 97]).outcome ≠ .raised .tooManyFound := by
  refine ⟨?_, rfl, ?_, ?_⟩ <;> decide
theorem tailLoop_step (S : BMHSearchState) (hay : List Byte) (left hpos sk : Nat)
    (h : hpos + (left + 1) = hay.length) :
    tailLoop S hay (left + 1) hpos sk =
      if carryFits S.needle hay (left + 1) then (true, left + 1)
      else tailLoop S hay left (hpos + 1) (left + 1) := by
  have e1 : hay.length - hpos = left + 1 := by omega
  have e2 : hpos = hay.length - (left + 1) := by omega
  have e3 : carryFits S.needle hay (left + 1) ↔
      (hay.drop hpos).take (left + 1) = S.needle.take (left + 1) := by
    unfold carryFits
    rw [← e2]
  rw [tailLoop]
  simp only [e1]
  by_cases hc : carryFits S.needle hay (left + 1)
  · rw [if_pos hc, if_pos (e3.mp hc)]
  · rw [if_neg hc, if_neg (fun h2 => hc (e3.mpr h2))]

theorem tailLoop_valid (S : BMHSearchState) (hay : List Byte) :
    ∀ (left hpos sk s : Nat), hpos + left = hay.length →
      tailLoop S hay left hpos sk = (true, s) →
      0 < s ∧ s ≤ left ∧ carryFits S.needle hay s := by
  intro left
  induction left with
  | zero => intro hpos sk s _ h; simp [tailLoop] at h
  | succ left ih =>
    intro hpos sk s hl h
    rw [tailLoop_step S hay left hpos sk hl] at h
    by_cases hc : carryFits S.needle hay (left + 1)
    · rw [if_pos hc] at h
      have : left + 1 = s := by simpa using h
      subst this
      exact ⟨by omega, le_refl _, hc⟩
    · rw [if_neg hc] at h
      have := ih (hpos + 1) (left + 1) s (by omega) h
      exact ⟨this.1, by omega, this.2.2⟩

theorem tailLoop_first (S : BMHSearchState) (hay : List Byte) (k : Nat) (hk : 0 < k)
    (hfit : carryFits S.needle hay k) :
    ∀ (left hpos sk : Nat), hpos + left = hay.length → k ≤ left →
      (∀ k2, k < k2 → k2 ≤ left → ¬ carryFits S.needle hay k2) →
      tailLoop S hay left hpos sk = (true, k) := by
  intro left
  induction left with
  | zero => intro hpos sk _ h; omega
  | succ left ih =>
    intro hpos sk hl hkl hno
    rw [tailLoop_step S hay left hpos sk hl]
    by_cases he : k = left + 1
    · subst he
      rw [if_pos hfit]
    · rw [if_neg (hno (left + 1) (by omega) (le_refl _))]
      exact ih (hpos + 1) (left + 1) (by omega) (by omega)
        (fun k2 h1 h2 => hno k2 h1 (by omega))

theorem trailing_valid (S : BMHSearchState) (hay : List Byte) (nf last : Nat)
    (hlen : S.nlen ≤ hay.length) :
    trailing S hay nf last = 0 ∨
    (0 < trailing S hay nf last ∧ trailing S hay nf last < S.nlen ∧
      carryFits S.needle hay (trailing S hay nf last)) := by
  unfold trailing
  simp only []
  by_cases h1 : nf = 0 ∨ last ≠ hay.length - S.nlen
  · rw [if_pos h1]
    generalize (if hay.getD (hay.length - 1) 0 = S.needle.getD (S.nlen - 1) 0
      then S.nlen - 1 else S.nlen - S.occ (hay.getD (hay.length - 1) 0)) = back
    by_cases hb : back < S.nlen ∧ back > 0
    · simp only [if_pos hb]
      cases hr : tailLoop S hay back (hay.length - back) 0 with
      | mk f s =>
        cases f with
        | false => left; simp
        | true =>
          right
          have := tailLoop_valid S hay back (hay.length - back) 0 s (by omega) hr
          simp only [if_true]
          exact ⟨this.1, by omega, this.2.2⟩
    · left; simp [if_neg hb]
  · rw [if_neg h1]; exact Or.inl rfl

theorem carryFits_last {P H : List Byte} {k : Nat} (hk : 0 < k)
    (hkH : k ≤ H.length) (h : carryFits P H k) :
    P[k - 1]? = some (H.getD (H.length - 1) 0) := by
  unfold carryFits at h
  have h1 : ((H.drop (H.length - k)).take k)[k - 1]? = (P.take k)[k - 1]? := by rw [h]
  rw [List.getElem?_take_of_lt (by omega), List.getElem?_take_of_lt (by omega),
    List.getElem?_drop] at h1
  rw [← h1, show H.length - k + (k - 1) = H.length - 1 by omega]
  simp [List.getD, List.getElem?_eq_getElem (show H.length - 1 < H.length by omega)]

theorem trailing_first (S : BMHSearchState) (hay : List Byte) (ok : TableOk S)
    (nf last k : Nat) (hlen : S.nlen ≤ hay.length)
    (hrun : nf = 0 ∨ last ≠ hay.length - S.nlen)
    (hk : 0 < k) (hkn : k < S.nlen) (hfit : carryFits S.needle hay k)
    (hno : ∀ k2, k < k2 → k2 < S.nlen → ¬ carryFits S.needle hay k2) :
    trailing S hay nf last = k := by
  have hl := ok.len
  have hlastb := carryFits_last hk (by omega) hfit
  have hocc := ok.occ_at _ _ hlastb
  unfold trailing
  simp only []
  rw [if_pos hrun]
  have hback : ∀ back, k ≤ back → back < S.nlen →
      (if (if back < S.nlen ∧ back > 0 then tailLoop S hay back (hay.length - back) 0
            else (false, 0)).1 = true
        then (if back < S.nlen ∧ back > 0 then tailLoop S hay back (hay.length - back) 0
            else (false, 0)).2 else 0) = k := by
    intro back h1 h2
    rw [if_pos (show back < S.nlen ∧ back > 0 from ⟨h2, by omega⟩)]
    rw [tailLoop_first S hay k hk hfit back (hay.length - back) 0 (by omega) h1
      (fun k2 h3 h4 => hno k2 h3 (by omega))]
    simp
  by_cases hc : hay.getD (hay.length - 1) 0 = S.needle.getD (S.nlen - 1) 0
  · rw [if_pos hc]
    exact hback _ (by omega) (by omega)
  · rw [if_neg hc]
    have hz : S.occ (hay.getD (hay.length - 1) 0) ≠ 0 := by
      intro h0
      have := ok.occ_zero _ h0
      exact hc (getD_of_getElem_some this).symm
    exact hback _ (by omega) (by omega)
theorem occursAt_append_right {P A : List Byte} (B : List Byte) {o : Nat}
    (h : occursAt P A o) : occursAt P (A ++ B) o := by
  rw [occursAt_iff] at h ⊢
  intro j hj
  have hj2 := h j hj
  have hlt : o + j < A.length := lt_of_getElem_eq hj2 hj
  rw [List.getElem?_append_left hlt, hj2]

theorem occursAt_append_left {P B : List Byte} (A : List Byte) {m : Nat}
    (h : occursAt P B m) : occursAt P (A ++ B) (m + A.length) := by
  rw [occursAt_iff] at h ⊢
  intro j hj
  rw [List.getElem?_append_right (by omega), ← h j hj]
  congr 1
  omega

theorem occursAt_carry {P A B : List Byte} {s : Nat} (hs : s < P.length) (hsA : s ≤ A.length)
    (hfit : carryFits P A s)
    (hrest : B.take (P.length - s) = (P.drop s).take (P.length - s)) :
    occursAt P (A ++ B) (A.length - s) := by
  rw [occursAt_iff]
  intro j hj
  by_cases hjs : j < s
  · unfold carryFits at hfit
    have h1 : ((A.drop (A.length - s)).take s)[j]? = (P.take s)[j]? := by rw [hfit]
    rw [List.getElem?_take_of_lt hjs, List.getElem?_take_of_lt hjs, List.getElem?_drop] at h1
    rw [List.getElem?_append_left (by omega), h1]
  · have h1 : (B.take (P.length - s))[j - s]? = ((P.drop s).take (P.length - s))[j - s]? := by
      rw [hrest]
    rw [List.getElem?_take_of_lt (by omega), List.getElem?_take_of_lt (by omega),
      List.getElem?_drop] at h1
    rw [List.getElem?_append_right (by omega),
      show A.length - s + j - A.length = j - s by omega, h1]
    congr 1
    omega

theorem carryFits_append {P B : List Byte} (A : List Byte) {t : Nat} (ht : t ≤ B.length)
    (h : carryFits P B t) : carryFits P (A ++ B) t := by
  unfold carryFits at h ⊢
  rw [← h, List.drop_append_eq_append_drop, List.length_append,
    List.drop_of_length_le (show A.length ≤ A.length + B.length - t by omega)]
  simp only [List.nil_append]
  congr 2
  omega

theorem thin_pairwise (n : Nat) : ∀ (L : List Nat) (lo : Nat),
    L.Pairwise (· < ·) → (thin n L lo).Pairwise (· < ·) := by
  intro L
  induction L with
  | nil => intro lo _; simp [thin]
  | cons y ys ih =>
    intro lo hp
    have hp2 := List.pairwise_cons.mp hp
    rw [thin]
    by_cases hc : lo ≤ y
    · rw [if_pos hc]
      exact List.pairwise_cons.mpr
        ⟨fun z hz => hp2.1 z (thin_subset _ _ _ z hz), ih _ hp2.2⟩
    · rw [if_neg hc]
      exact ih _ hp2.2

/-- What the offsets stored by a returning `find` are, on a state that fits
the stream `A` fed before. -/
theorem reported_facts (S : BMHSearchState) (A hay : List Byte) (ok : TableOk S)
    (htot : S.htotal = A.length)
    (hcarry : S.skip = 0 ∨
      (S.skip < S.needle.length ∧ S.skip ≤ A.length ∧ carryFits S.needle A S.skip)) :
    (∀ o ∈ reported S hay, occursAt S.needle (A ++ hay) o ∧ A.length < o + S.needle.length) ∧
    (reported S hay).Pairwise (· < ·) := by
  have hl := ok.len
  have hpos := ok.pos
  have hg : ∀ o ∈ (greedyOcc S.needle hay).map (· + S.htotal),
      occursAt S.needle (A ++ hay) o ∧ A.length ≤ o := by
    intro o ho
    obtain ⟨m, hm, rfl⟩ := List.mem_map.mp ho
    rw [htot]
    exact ⟨occursAt_append_left A (greedyOcc_occurs hm), by omega⟩
  have hgs : ((greedyOcc S.needle hay).map (· + S.htotal)).Pairwise (· < ·) := by
    rw [List.pairwise_map]
    have := thin_pairwise S.needle.length (allOcc S.needle hay) 0 (allOcc_sorted _ _)
    exact this.imp (fun h => by omega)
  unfold reported carried
  by_cases hc : S.skip ≠ 0 ∧
      hay.take (S.nlen - S.skip) = (S.needle.drop S.skip).take (S.nlen - S.skip)
  · rw [if_pos hc]
    rcases hcarry with h0 | ⟨h1, h2, h3⟩
    · exact absurd h0 hc.1
    · have hocc : occursAt S.needle (A ++ hay) (A.length - S.skip) :=
        occursAt_carry h1 h2 h3 (by rw [← hl]; exact hc.2)
      constructor
      · intro o ho
        rcases List.mem_append.mp ho with h | h
        · have : o = S.htotal - S.skip := by simpa using h
          subst this
          rw [htot]
          exact ⟨hocc, by omega⟩
        · exact ⟨(hg o h).1, by have := (hg o h).2; omega⟩
      · simp only [List.singleton_append]
        refine List.pairwise_cons.mpr ⟨?_, hgs⟩
        intro o ho
        have := (hg o ho).2
        have := hc.1
        omega
  · rw [if_neg hc]
    simp only [List.nil_append]
    exact ⟨fun o ho => ⟨(hg o ho).1, by have := (hg o ho).2; omega⟩, hgs⟩

theorem find_returned_inv (S : BMHSearchState) (hay : List Byte) (ok : TableOk S) (n : Nat)
    (h : (BMHSearch_find S hay).outcome = .returned n) :
    S.nlen ≤ hay.length ∧
    (greedyOcc S.needle hay = [] ∨ S.nfound + (reported S hay).length ≤ S.max_find) := by
  have hlen : S.nlen ≤ hay.length := by
    by_contra hc
    unfold BMHSearch_find at h
    simp [show S.nlen > hay.length by omega] at h
  refine ⟨hlen, ?_⟩
  by_contra hc
  have hne : greedyOcc S.needle hay ≠ [] := fun e => hc (Or.inl e)
  have hcap : S.max_find < S.nfound + (reported S hay).length := by
    by_contra h2
    exact hc (Or.inr (by omega))
  obtain ⟨fa, nf, h1, _⟩ := find_raised S hay ok hlen hne hcap
  rw [h1] at h
  simp at h
theorem tableOk_of_consts {S T : BMHSearchState} (ok : TableOk S) (h1 : T.needle = S.needle)
    (h2 : T.nlen = S.nlen) (h3 : T.occ = S.occ) : TableOk T := by
  refine ⟨?_, ?_, ?_, ?_, ?_⟩
  · rw [h1, h2]; exact ok.len
  · rw [h2]; exact ok.pos
  · rw [h2, h3]; exact ok.occ_le
  · rw [h1, h2, h3]; exact ok.occ_at
  · rw [h1, h2, h3]; exact ok.occ_zero

theorem step_failed {r : Run} {op : Op} (h : (step r op).failed = false) : r.failed = false := by
  cases op with
  | pop => simpa [step] using h
  | find hay =>
    simp only [step] at h
    split at h
    · exact h
    · simp at h

theorem step_find_returned {r : Run} {hay : List Byte} (h : (step r (.find hay)).failed = false) :
    ∃ n, (BMHSearch_find r.state hay).outcome = .returned n ∧
      step r (.find hay) = { r with state := (BMHSearch_find r.state hay).state,
                                    fed := r.fed ++ [hay] } := by
  simp only [step] at h ⊢
  split at h
  · rename_i n hn
    exact ⟨n, hn, by simp only [hn]⟩
  · simp at h

theorem streamInv_step (P : List Byte) (r : Run) (op : Op) (inv : StreamInv P r)
    (h : (step r op).failed = false) : StreamInv P (step r op) := by
  cases op with
  | pop =>
    have e : pending (BMHSearch_pop r.state).2 = [] := by simp [pending, BMHSearch_pop]
    refine ⟨tableOk_of_consts inv.ok rfl rfl rfl, inv.needle, inv.total, Nat.zero_le _,
      inv.carry, ?_, ?_, ?_⟩
    · intro o ho
      apply inv.sound o
      simpa [step, e, BMHSearch_pop, pending] using ho
    · have := inv.sorted
      simpa [step, e, BMHSearch_pop, pending] using this
    · intro hne
      simp [step, BMHSearch_pop] at hne
  | find hay =>
    obtain ⟨n, hn, hstep⟩ := step_find_returned h
    obtain ⟨hlen, hcap⟩ := find_returned_inv r.state hay inv.ok n hn
    have hpb := find_pending r.state hay inv.ok hlen hcap inv.buf
    have hpend := hpb.1
    have heq := find_returned r.state hay inv.ok hlen hcap
    have hnl : r.state.nlen = P.length := by rw [inv.ok.len, inv.needle]
    have hfacts := reported_facts r.state r.stream hay inv.ok inv.total
      (by rw [inv.needle]; exact inv.carry)
    rw [inv.needle] at hfacts
    have hstream : (step r (.find hay)).stream = r.stream ++ hay := by
      rw [hstep]; simp [Run.stream]
    have hpop : (step r (.find hay)).popped = r.popped := by rw [hstep]
    have hst : (step r (.find hay)).state = (BMHSearch_find r.state hay).state := by rw [hstep]
    have hconst := find_consts r.state hay
    have hsub : ∀ o ∈ (step r (.find hay)).popped ++ pending (step r (.find hay)).state,
        o ∈ r.popped ++ pending r.state ∨ o ∈ reported r.state hay := by
      intro o ho
      rw [hpop, hst, hpend] at ho
      rcases List.mem_append.mp ho with h1 | h1
      · exact Or.inl (List.mem_append_left _ h1)
      · rcases List.mem_append.mp h1 with h2 | h2
        · exact Or.inl (List.mem_append_right _ h2)
        · exact Or.inr h2
    have hPpos : 0 < P.length := by rw [← hnl]; exact inv.ok.pos
    refine ⟨?_, ?_, ?_, ?_, ?_, ?_, ?_, ?_⟩
    · rw [hst]; exact tableOk_of_consts inv.ok hconst.1 hconst.2.1 hconst.2.2.1
    · rw [hst, hconst.1]; exact inv.needle
    · rw [hst, hstream, heq]
      simp [inv.total]
    · rw [hst]
      exact hpb.2
    · rw [hst, hstream, heq]
      simp only []
      have hv := trailing_valid r.state hay (r.state.nfound + (reported r.state hay).length)
        (lastOr 0 (greedyOcc r.state.needle hay)) hlen
      generalize trailing r.state hay (r.state.nfound + (reported r.state hay).length)
        (lastOr 0 (greedyOcc r.state.needle hay)) = t at hv ⊢
      rcases hv with h0 | ⟨h1, h2, h3⟩
      · exact Or.inl h0
      · right
        rw [inv.needle] at h3
        exact ⟨by omega, by simp; omega, carryFits_append _ (by omega) h3⟩
    · intro o ho
      rw [hstream]
      rcases hsub o ho with h1 | h1
      · exact occursAt_append_right hay (inv.sound o h1)
      · exact (hfacts.1 o h1).1
    · rw [hpop, hst, hpend]
      have hall : (r.popped ++ (pending r.state ++ reported r.state hay)).Pairwise (· < ·) := by
        rw [← List.append_assoc]
        refine List.pairwise_append.mpr ⟨inv.sorted, hfacts.2, ?_⟩
        intro a ha b hb
        have h1 := occursAt_bound hPpos (inv.sound a ha)
        have h2 := (hfacts.1 b hb).2
        omega
      exact hall
    · intro hne
      rw [hst, heq] at hne
      simp only [] at hne
      rw [hstream]
      by_cases h0 : r.state.nfound = 0
      · have : reported r.state hay ≠ [] := by
          intro e; rw [e] at hne; simp at hne; exact hne h0
        obtain ⟨o, ho⟩ := List.exists_mem_of_ne_nil _ this
        exact ⟨o, (hfacts.1 o ho).1⟩
      · obtain ⟨o, ho⟩ := inv.count h0
        exact ⟨o, occursAt_append_right hay ho⟩

theorem run_failed_prefix (S : BMHSearchState) (ops : List Op) (op : Op)
    (h : (run S (ops ++ [op])).failed = false) : (run S ops).failed = false := by
  rw [run_append] at h
  exact step_failed h

theorem streamInv_run (P : List Byte) (c : Nat) (hP : P ≠ []) (ops : List Op) :
    (run (fresh P c) ops).failed = false → StreamInv P (run (fresh P c) ops) := by
  induction ops using List.reverseRecOn with
  | nil =>
    intro _
    have e : (run (fresh P c) []).popped ++ pending (run (fresh P c) []).state = [] := rfl
    refine ⟨fresh_tableOk P c hP, rfl, rfl, Nat.zero_le _, Or.inl rfl, ?_, ?_, ?_⟩
    · intro o ho; rw [e] at ho; simp at ho
    · rw [e]; exact List.Pairwise.nil
    · intro h; exact absurd rfl h
  | append_singleton ops op ih =>
    intro h
    have hprev := run_failed_prefix _ ops op h
    rw [run_append] at h ⊢
    exact streamInv_step P _ op (ih hprev) h
/-- C4.  On a state built by `BMHSearch_init` for the needle `P`, after any
calls of `find` and `pop` none of which raised, every offset that was popped
or that a `pop` would now return (the stores past `max_find` made by the
boundary-carry check included) is the start of an occurrence of `P` in the
stream fed so far; and when `P` does not occur in that stream the pending
count is 0. -/
theorem reported_offsets_sound (P : List Byte) (c : Nat) (S : BMHSearchState)
    (hinit : BMHSearch_init P c = .ok S) (ops : List Op)
    (hok : (run S ops).failed = false) :
    (∀ o ∈ (run S ops).popped ++ pending (run S ops).state,
      occursAt P (run S ops).stream o) ∧
    ((∀ o, ¬ occursAt P (run S ops).stream o) → BMHSearch_nfound (run S ops).state = 0) := by
  obtain ⟨hP, rfl⟩ := init_ok hinit
  have inv := streamInv_run P c hP ops hok
  refine ⟨inv.sound, fun hno => ?_⟩
  by_contra hne
  obtain ⟨o, ho⟩ := inv.count hne
  exact hno o ho

/-- Witness for `reported_offsets_sound`: needle "ab", capacity 1, chunks
"aba" and "bxx" and a `pop`: no call raises, the second chunk stores the
boundary match past the one cell of the buffer, the offsets popped are 0 and
2, and both are occurrences in "ababxx".  Needle "zzz", chunk "abcdef": the
pending count is 0. -/
theorem reported_offsets_sound_witness :
    BMHSearch_init [97, 98] 1 = .ok (fresh [97, 98] 1) ∧
    (run (fresh [97, 98] 1) [.find [97, 98, 97], .find [98, 120, 120], .pop]).failed = false ∧
    (run (fresh [97, 98] 1) [.find [97, 98, 97], .find [98, 120, 120], .pop]).popped = [0, 2] ∧
    (∀ o ∈ (run (fresh [97, 98] 1) [.find [97, 98, 97], .find [98, 120, 120], .pop]).popped ++
        pending (run (fresh [97, 98] 1) [.find [97, 98, 97], .find [98, 120, 120], .pop]).state,
      occursAt [97, 98]
        (run (fresh [97, 98] 1) [.find [97, 98, 97], .find [98, 120, 120], .pop]).stream o) ∧
    BMHSearch_init [122, 122, 122] 2 = .ok (fresh [122, 122, 122] 2) ∧
    (run (fresh [122, 122, 122] 2) [.find [97, 98, 99, 100, 101, 102]]).failed = false ∧
    BMHSearch_nfound (run (fresh [122, 122, 122] 2)
      [.find [97, 98, 99, 100, 101, 102]]).state = 0 :=
  ⟨rfl, by decide, by decide,
   (reported_offsets_sound [97, 98] 1 (fresh [97, 98] 1) rfl
      [.find [97, 98, 97], .find [98, 120, 120], .pop] (by decide)).1,
   rfl, by decide,
   (reported_offsets_sound [122, 122, 122] 2 (fresh [122, 122, 122] 2) rfl
      [.find [97, 98, 99, 100, 101, 102]] (by decide)).2
     (by
       intro o
       have e : (run (fresh [122, 122, 122] 2) [.find [97, 98, 99, 100, 101, 102]]).stream
           = [97, 98, 99, 100, 101, 102] := by decide
       rw [e]
       intro h
       have hb := occursAt_bound (by decide) h
       have : o < 4 := by simp at hb; omega
       interval_cases o <;> revert h <;> decide)⟩

/-- C8.  On a state built by `BMHSearch_init`, after any calls of `find` and
`pop` none of which raised, the offsets popped so far followed by those a
`pop` would now return, in the order in which they were stored (the stores
past `max_find` made by the boundary-carry check included), are strictly
increasing. -/
theorem reported_offsets_increasing (P : List Byte) (c : Nat) (S : BMHSearchState)
    (hinit : BMHSearch_init P c = .ok S) (ops : List Op)
    (hok : (run S ops).failed = false) :
    ((run S ops).popped ++ pending (run S ops).state).Pairwise (· < ·) := by
  obtain ⟨hP, rfl⟩ := init_ok hinit
  exact (streamInv_run P c hP ops hok).sorted

/-- Witness for `reported_offsets_increasing`: needle "ab", capacity 1, chunk
"aba" (match at 0, popped), chunk "bxxa" whose boundary match at 2 fills the
one cell, chunk "bxxx" whose boundary match at 6 is stored past the buffer;
no call raises and the offsets are 0, then 2 and 6. -/
theorem reported_offsets_increasing_witness :
    BMHSearch_init [97, 98] 1 = .ok (fresh [97, 98] 1) ∧
    (run (fresh [97, 98] 1) [.find [97, 98, 97], .pop, .find [98, 120, 120, 97],
      .find [98, 120, 120, 120]]).failed = false ∧
    (run (fresh [97, 98] 1) [.find [97, 98, 97], .pop, .find [98, 120, 120, 97],
      .find [98, 120, 120, 120]]).popped = [0] ∧
    pending (run (fresh [97, 98] 1) [.find [97, 98, 97], .pop, .find [98, 120, 120, 97],
      .find [98, 120, 120, 120]]).state = [2, 6] ∧
    ((run (fresh [97, 98] 1) [.find [97, 98, 97], .pop, .find [98, 120, 120, 97],
      .find [98, 120, 120, 120]]).popped ++
     pending (run (fresh [97, 98] 1) [.find [97, 98, 97], .pop, .find [98, 120, 120, 97],
      .find [98, 120, 120, 120]]).state).Pairwise (· < ·) :=
  ⟨rfl, by decide, by decide, by decide,
   reported_offsets_increasing [97, 98] 1 (fresh [97, 98] 1) rfl
     [.find [97, 98, 97], .pop, .find [98, 120, 120, 97], .find [98, 120, 120, 120]]
     (by decide)⟩

theorem carryFits_of_straddle {P A B : List Byte} {o : Nat} (h : occursAt P (A ++ B) o)
    (ho : o < A.length) (ho2 : A.length < o + P.length) :
    carryFits P A (A.length - o) := by
  rw [occursAt_iff] at h
  unfold carryFits
  rw [show A.length - (A.length - o) = o by omega]
  apply List.ext_getElem?
  intro j
  by_cases hj : j < A.length - o
  · rw [List.getElem?_take_of_lt hj, List.getElem?_take_of_lt hj, List.getElem?_drop,
      ← h j (by omega), List.getElem?_append_left (by omega)]
  · rw [List.getElem?_eq_none (by simp; omega), List.getElem?_eq_none (by simp; omega)]

theorem rest_of_straddle {P A B : List Byte} {o : Nat} (h : occursAt P (A ++ B) o)
    (ho : o < A.length) (ho2 : A.length < o + P.length) :
    B.take (P.length - (A.length - o))
      = (P.drop (A.length - o)).take (P.length - (A.length - o)) := by
  rw [occursAt_iff] at h
  apply List.ext_getElem?
  intro j
  by_cases hj : j < P.length - (A.length - o)
  · rw [List.getElem?_take_of_lt hj, List.getElem?_take_of_lt hj, List.getElem?_drop,
      ← h (A.length - o + j) (by omega), List.getElem?_append_right (by omega)]
    congr 1
    omega
  · rw [List.getElem?_eq_none (by simp; omega), List.getElem?_eq_none (by simp; omega)]

theorem lastOr_mem : ∀ (ms : List Nat) (d : Nat), ms ≠ [] → lastOr d ms ∈ ms := by
  intro ms
  induction ms with
  | nil => intro d h; exact absurd rfl h
  | cons m ms ih =>
    intro d _
    rw [lastOr]
    cases ms with
    | nil => simp [lastOr]
    | cons y ys => exact List.mem_cons_of_mem _ (ih m (by simp))

/-- Where the boundary handling succeeds.  Let the needle `P` occur in
`H1 ++ H2` at an offset `o` with `o < |H1| < o + |P|`, both chunks being at
least as long as `P`.  If the main scan of `H1` reports no match at
`|H1| - |P|` and no prefix of `P` longer than `|H1| - o` and shorter than `P`
ends `H1`, then on a state built by `BMHSearch_init` with room for the
results, `find` with `H1` and then with `H2` both return and `o` is among the
offsets then popped. -/
theorem straddling_match_reported (P H1 H2 : List Byte) (c o : Nat) (S : BMHSearchState)
    (hinit : BMHSearch_init P c = .ok S)
    (hlen1 : P.length ≤ H1.length) (hlen2 : P.length ≤ H2.length)
    (hocc : occursAt P (H1 ++ H2) o) (ho : o < H1.length) (ho2 : H1.length < o + P.length)
    (hend : H1.length - P.length ∉ greedyOcc P H1)
    (hlong : ∀ k, H1.length - o < k → k < P.length → ¬ carryFits P H1 k)
    (hcap : (greedyOcc P H1).length + 1 + (greedyOcc P H2).length ≤ c) :
    (BMHSearch_find S H1).outcome = .returned (greedyOcc P H1).length ∧
    (BMHSearch_find (BMHSearch_find S H1).state H2).outcome
      = .returned ((greedyOcc P H1).length + 1 + (greedyOcc P H2).length) ∧
    o ∈ (BMHSearch_pop (BMHSearch_find (BMHSearch_find S H1).state H2).state).1 := by
  obtain ⟨hP, rfl⟩ := init_ok hinit
  have ok := fresh_tableOk P c hP
  have hcap1 : greedyOcc (fresh P c).needle H1 = [] ∨
      (fresh P c).nfound + (reported (fresh P c) H1).length ≤ (fresh P c).max_find := by
    right
    rw [fresh_reported]
    show 0 + (greedyOcc P H1).length ≤ c
    omega
  have hrun : 0 + (greedyOcc P H1).length = 0 ∨
      lastOr 0 (greedyOcc P H1) ≠ H1.length - P.length := by
    by_cases hg : greedyOcc P H1 = []
    · left; simp [hg]
    · right
      intro e
      exact hend (e ▸ lastOr_mem _ 0 hg)
  have htr : trailing (fresh P c) H1 (0 + (greedyOcc P H1).length) (lastOr 0 (greedyOcc P H1))
      = H1.length - o :=
    trailing_first (fresh P c) H1 ok _ _ (H1.length - o) hlen1 hrun (by omega)
      (by show H1.length - o < P.length; omega)
      (carryFits_of_straddle hocc ho ho2) hlong
  have e1 := find_returned (fresh P c) H1 ok hlen1 hcap1
  have hpb1 := find_pending (fresh P c) H1 ok hlen1 hcap1 (Nat.zero_le _)
  have hp1 := hpb1.1
  have f7 := hpb1.2
  rw [fresh_reported] at e1 hp1
  have hnf : (fresh P c).nfound = 0 := rfl
  have hnd : (fresh P c).needle = P := rfl
  have hht : (fresh P c).htotal = 0 := rfl
  rw [hnf, hnd, htr, hht] at e1
  have hpf : pending (fresh P c) = [] := rfl
  rw [hpf, List.nil_append] at hp1
  have o1 : (BMHSearch_find (fresh P c) H1).outcome = .returned (greedyOcc P H1).length := by
    rw [e1]; simp
  have ok1 : TableOk (BMHSearch_find (fresh P c) H1).state := by
    rw [e1]; exact tableOk_of_consts ok rfl rfl rfl
  have f1 : (BMHSearch_find (fresh P c) H1).state.needle = P := by rw [e1]
  have f2 : (BMHSearch_find (fresh P c) H1).state.nlen = P.length := by rw [e1]; rfl
  have f3 : (BMHSearch_find (fresh P c) H1).state.skip = H1.length - o := by rw [e1]
  have f4 : (BMHSearch_find (fresh P c) H1).state.htotal = H1.length := by rw [e1]; simp
  have f5 : (BMHSearch_find (fresh P c) H1).state.nfound = (greedyOcc P H1).length := by
    rw [e1]; simp
  have f6 : (BMHSearch_find (fresh P c) H1).state.max_find = c := by rw [e1]; rfl
  refine ⟨o1, ?_⟩
  clear e1 o1
  generalize (BMHSearch_find (fresh P c) H1).state = S1 at *
  have hcar : carried S1 H2 = [o] := by
    unfold carried
    rw [f1, f2, f3, f4, if_pos ⟨by omega, rest_of_straddle hocc ho ho2⟩]
    congr 1
    omega
  have hrep : reported S1 H2 = o :: (greedyOcc P H2).map (· + H1.length) := by
    rw [reported, hcar, f1, f4]; rfl
  have hcap2 : greedyOcc S1.needle H2 = [] ∨
      S1.nfound + (reported S1 H2).length ≤ S1.max_find := by
    right
    rw [hrep, f5, f6]
    simp
    omega
  have e2 := find_returned S1 H2 ok1 (by rw [f2]; exact hlen2) hcap2
  have hp2 := (find_pending S1 H2 ok1 (by rw [f2]; exact hlen2) hcap2 f7).1
  rw [hp1, hrep] at hp2
  constructor
  · rw [e2, hrep, f5]
    simp
    omega
  · show o ∈ pending (BMHSearch_find S1 H2).state
    rw [hp2]
    simp

/-- Needle "aa", chunks "xaa" and "axx": the needle occurs at offset 2 across
the boundary, overlapping the match at offset 1 that ends the first chunk; no
carry is kept then (line 188), and offset 2 is not reported, as it is not
reported for the single chunk "xaaaxx" either. -/
theorem straddling_overlap_not_reported :
    BMHSearch_init [97, 97] 4 = .ok (fresh [97, 97] 4) ∧
    occursAt [97, 97] ([120, 97, 97] ++ [97, 120, 120]) 2 ∧
    (run (fresh [97, 97] 4) [.find [120, 97, 97], .find [97, 120, 120], .pop]).failed = false ∧
    (run (fresh [97, 97] 4) [.find [120, 97, 97], .find [97, 120, 120], .pop]).popped = [1] ∧
    2 ∉ (run (fresh [97, 97] 4) [.find [120, 97, 97], .find [97, 120, 120], .pop]).popped := by
  refine ⟨rfl, ?_, ?_, ?_, ?_⟩ <;> decide

/-- C3 fails on the code.  Needle "aab", chunks "xaa" and "abx", each as long
as the needle: the needle occurs in "xaa" ++ "abx" at offset 2, across the
boundary (2 < 3 < 5), and nothing of it is reported in the first chunk.  With
room for four results, `find` with "xaa" returns with the carry 2 (the longest
prefix "aa"), `find` with "abx" returns, its boundary-carry check storing
nothing, and offset 2 is never reported.  The shorter prefix "a", which also
ends "xaa" and is the one the occurrence continues, is never tried. -/
theorem straddling_match_lost :
    BMHSearch_init [97, 97, 98] 4 = .ok (fresh [97, 97, 98] 4) ∧
    occursAt [97, 97, 98] ([120, 97, 97] ++ [97, 98, 120]) 2 ∧
    [97, 97, 98].length ≤ [120, 97, 97].length ∧ [97, 97, 98].length ≤ [97, 98, 120].length ∧
    2 < [120, 97, 97].length ∧ [120, 97, 97].length < 2 + [97, 97, 98].length ∧
    greedyOcc [97, 97, 98] [120, 97, 97] = [] ∧
    carryFits [97, 97, 98] [120, 97, 97] 1 ∧
    (BMHSearch_find (fresh [97, 97, 98] 4) [120, 97, 97]).outcome = .returned 0 ∧
    (BMHSearch_find (fresh [97, 97, 98] 4) [120, 97, 97]).state.skip = 2 ∧
    carried (BMHSearch_find (fresh [97, 97, 98] 4) [120, 97, 97]).state [97, 98, 120] = [] ∧
    (BMHSearch_find (BMHSearch_find (fresh [97, 97, 98] 4) [120, 97, 97]).state
      [97, 98, 120]).outcome = .returned 0 ∧
    2 ∉ (BMHSearch_pop (BMHSearch_find (BMHSearch_find (fresh [97, 97, 98] 4)
      [120, 97, 97]).state [97, 98, 120]).state).1 := by
  refine ⟨rfl, ?_, ?_, ?_, ?_, ?_, ?_, ?_, ?_, ?_, ?_, ?_, ?_⟩ <;> decide
/-- C11.  In every state `BMHSearch_pop` returns the cells `found_at[0]` to
`found_at[nfound - 1]` of the result buffer in their order, so an array of
exactly `nfound` entries, sets `nfound` to 0 and leaves every other field as
it is, and a second `BMHSearch_pop` right after returns the empty array.  The
number returned by a returning `BMHSearch_find` is the value of `nfound` it
leaves, hence the length of the array popped next. -/
theorem pop_contract (S : BMHSearchState) :
    (BMHSearch_pop S).1
      = (List.range (BMHSearch_nfound S)).map (fun i => S.found_at.getD i 0) ∧
    (BMHSearch_pop S).1.length = BMHSearch_nfound S ∧
    (∀ i, i < BMHSearch_nfound S → (BMHSearch_pop S).1[i]? = some (S.found_at.getD i 0)) ∧
    (∀ hay n, (BMHSearch_find S hay).outcome = .returned n →
      BMHSearch_nfound (BMHSearch_find S hay).state = n ∧
      (BMHSearch_pop (BMHSearch_find S hay).state).1.length = n) ∧
    (BMHSearch_nfound (BMHSearch_pop S).2 = 0 ∧
      (BMHSearch_pop S).2.occ = S.occ ∧ (BMHSearch_pop S).2.htotal = S.htotal ∧
      (BMHSearch_pop S).2.needle = S.needle ∧ (BMHSearch_pop S).2.nlen = S.nlen ∧
      (BMHSearch_pop S).2.skip = S.skip ∧ (BMHSearch_pop S).2.max_find = S.max_find ∧
      (BMHSearch_pop S).2.found_at = S.found_at) ∧
    (BMHSearch_pop (BMHSearch_pop S).2).1 = [] := by
  have hl : ∀ T : BMHSearchState, (BMHSearch_pop T).1.length = T.nfound := by
    intro T; simp [BMHSearch_pop]
  refine ⟨rfl, hl S, ?_, ?_, ⟨rfl, rfl, rfl, rfl, rfl, rfl, rfl, rfl⟩, ?_⟩
  · intro i hi
    simp only [BMHSearch_pop, BMHSearch_nfound] at hi ⊢
    rw [List.getElem?_map, List.getElem?_range hi]
    rfl
  · intro hay n h
    have hn : BMHSearch_nfound (BMHSearch_find S hay).state = n := by
      unfold BMHSearch_find at h ⊢
      by_cases h1 : S.nlen > hay.length
      · simp [h1] at h
      · by_cases h2 : S.nlen ≤ 0
        · simp [h1, h2] at h
        · simp only [if_neg h1, if_neg h2] at h ⊢
          revert h
          split <;> simp [BMHSearch_nfound]
    exact ⟨hn, (hl _).trans hn⟩
  · simp [BMHSearch_pop]

/-- C12.  The function `BMHSearch_init` raises, with "Needle can't be 0
length.", exactly when the needle has length 0; for every other needle and
every capacity it yields a state with `htotal = 0`, `skip = 0`, `nfound = 0`,
the needle stored as given and `max_find` the capacity asked for. -/
theorem init_contract (P : List Byte) (c : Nat) :
    (BMHSearch_init P c = .error .needleEmpty ↔ P.length = 0) ∧
    ((∃ e, BMHSearch_init P c = .error e) ↔ P.length = 0) ∧
    (P.length ≠ 0 → ∃ S, BMHSearch_init P c = .ok S ∧ BMHSearch_total S = 0 ∧ S.skip = 0 ∧
      BMHSearch_nfound S = 0 ∧ S.needle = P ∧ S.nlen = P.length ∧ S.max_find = c) := by
  unfold BMHSearch_init
  by_cases h : P.length ≤ 0
  · have h0 : P.length = 0 := by omega
    simp [h0]
  · have h0 : P.length ≠ 0 := by omega
    simp [h0, BMHSearch_total, BMHSearch_nfound]
theorem find_skip_of_returned (S : BMHSearchState) (hay : List Byte) (n : Nat)
    (h : (BMHSearch_find S hay).outcome = .returned n) :
    S.nlen ≤ hay.length ∧ 0 < S.nlen ∧
    ∃ nf last, (BMHSearch_find S hay).state.skip = trailing S hay nf last := by
  unfold BMHSearch_find at h ⊢
  by_cases h1 : S.nlen > hay.length
  · simp [h1] at h
  · by_cases h2 : S.nlen ≤ 0
    · simp [h1, h2] at h
    · simp only [if_neg h1, if_neg h2] at h ⊢
      refine ⟨by omega, by omega, ?_⟩
      revert h
      split
      · simp
      · simp
      · intro _
        exact ⟨_, _, rfl⟩

/-- C13.  On every state reached from `BMHSearch_init` with the needle `P` by
any calls, after a call of `find` with a chunk `H` that returns, the carry
`skip` is smaller than the length of `P`, and when it is not 0 the last `skip`
bytes of `H` are the first `skip` bytes of `P`. -/
theorem carry_skip_valid (P : List Byte) (c : Nat) (S : BMHSearchState)
    (hinit : BMHSearch_init P c = .ok S) (ops : List Op) (H : List Byte) (n : Nat)
    (hret : (BMHSearch_find (run S ops).state H).outcome = .returned n) :
    (BMHSearch_find (run S ops).state H).state.skip < P.length ∧
    ((BMHSearch_find (run S ops).state H).state.skip ≠ 0 →
      (BMHSearch_find (run S ops).state H).state.skip ≤ H.length ∧
      carryFits P H (BMHSearch_find (run S ops).state H).state.skip) := by
  obtain ⟨_, rfl⟩ := init_ok hinit
  have hc := run_consts (fresh P c) ops
  have hn : (run (fresh P c) ops).state.nlen = P.length := hc.2.1
  have hnd : (run (fresh P c) ops).state.needle = P := hc.1
  generalize (run (fresh P c) ops).state = T at hret hn hnd ⊢
  obtain ⟨hlen, hpos, nf, last, hs⟩ := find_skip_of_returned T H n hret
  rw [hs]
  rcases trailing_valid T H nf last hlen with h0 | ⟨h1, h2, h3⟩
  · rw [h0]
    exact ⟨by omega, fun h => absurd rfl h⟩
  · rw [hnd] at h3
    exact ⟨by omega, fun _ => ⟨by omega, h3⟩⟩

/-- Witness for `carry_skip_valid`: needle "abc", chunk "xxab" leaves the
carry 2. -/
theorem carry_skip_valid_witness :
    BMHSearch_init [97, 98, 99] 2 = .ok (fresh [97, 98, 99] 2) ∧
    (BMHSearch_find (run (fresh [97, 98, 99] 2) []).state [120, 120, 97, 98]).outcome
      = .returned 0 ∧
    (BMHSearch_find (run (fresh [97, 98, 99] 2) []).state [120, 120, 97, 98]).state.skip = 2 ∧
    carryFits [97, 98, 99] [120, 120, 97, 98]
      (BMHSearch_find (run (fresh [97, 98, 99] 2) []).state [120, 120, 97, 98]).state.skip :=
  ⟨rfl, by decide, by decide,
   ((carry_skip_valid [97, 98, 99] 2 (fresh [97, 98, 99] 2) rfl [] [120, 120, 97, 98] 0
      (by decide)).2 (by decide)).2⟩
theorem trailing_ge (S : BMHSearchState) (hay : List Byte) (ok : TableOk S)
    (nf last k : Nat) (hlen : S.nlen ≤ hay.length)
    (hrun : nf = 0 ∨ last ≠ hay.length - S.nlen)
    (hk : 0 < k) (hkn : k < S.nlen) (hfit : carryFits S.needle hay k) :
    k ≤ trailing S hay nf last := by
  have hsp := Nat.findGreatest_spec (P := fun j => 0 < j ∧ carryFits S.needle hay j)
    (show k ≤ S.nlen - 1 by omega) ⟨hk, hfit⟩
  have hle := Nat.le_findGreatest (P := fun j => 0 < j ∧ carryFits S.needle hay j)
    (show k ≤ S.nlen - 1 by omega) ⟨hk, hfit⟩
  have hub := Nat.findGreatest_le (P := fun j => 0 < j ∧ carryFits S.needle hay j) (S.nlen - 1)
  have hgr : ∀ k2, Nat.findGreatest (fun j => 0 < j ∧ carryFits S.needle hay j) (S.nlen - 1) < k2 →
      k2 < S.nlen → ¬ carryFits S.needle hay k2 := by
    intro k2 h1 h2 h3
    exact Nat.findGreatest_is_greatest h1 (by omega) ⟨by omega, h3⟩
  rw [trailing_first S hay ok nf last _ hlen hrun hsp.1 (by omega) hsp.2 hgr]
  exact hle

/-- C15.  For a needle `P` that is not empty and a chunk `H` at least as long
in which `P` does not occur, `find` on the state built by `BMHSearch_init`
returns and leaves as carry `skip` the length of the longest prefix of `P`,
of length 1 to `|P| - 1`, that ends `H`, and 0 when there is none: the carry
is 0 or such a prefix, and every such prefix is at most as long as the carry. -/
theorem carry_is_longest (P H : List Byte) (c : Nat) (S : BMHSearchState)
    (hinit : BMHSearch_init P c = .ok S) (hlen : P.length ≤ H.length)
    (hnone : ∀ i, ¬ occursAt P H i) :
    (BMHSearch_find S H).outcome = .returned 0 ∧
    ((BMHSearch_find S H).state.skip = 0 ∨
      (0 < (BMHSearch_find S H).state.skip ∧ (BMHSearch_find S H).state.skip < P.length ∧
        carryFits P H (BMHSearch_find S H).state.skip)) ∧
    (∀ k, 0 < k → k < P.length → carryFits P H k → k ≤ (BMHSearch_find S H).state.skip) := by
  obtain ⟨hP, rfl⟩ := init_ok hinit
  have ok := fresh_tableOk P c hP
  have hall : allOcc P H = [] := by
    apply List.eq_nil_iff_forall_not_mem.mpr
    intro i hi
    exact hnone i (mem_allOcc.mp hi).2
  have hg : greedyOcc P H = [] := by simp [greedyOcc, hall, thin]
  have hrep : reported (fresh P c) H = [] := by rw [fresh_reported, hg]
  have e := find_returned (fresh P c) H ok hlen (Or.inl hg)
  rw [hrep] at e
  have hs : (BMHSearch_find (fresh P c) H).state.skip = trailing (fresh P c) H 0 0 := by
    rw [e]
    show trailing (fresh P c) H (0 + 0) (lastOr 0 (greedyOcc P H)) = _
    rw [hg]
    rfl
  refine ⟨by rw [e]; rfl, ?_, ?_⟩
  · rw [hs]
    exact trailing_valid (fresh P c) H 0 0 hlen
  · intro k hk hkn hfit
    rw [hs]
    exact trailing_ge (fresh P c) H ok 0 0 k hlen (Or.inl rfl) hk hkn hfit

/-- Witness for `carry_is_longest`: needle "aab", chunk "xaa" leaves the
carry 2 (both "a" and "aa" end the chunk). -/
theorem carry_is_longest_witness :
    BMHSearch_init [97, 97, 98] 2 = .ok (fresh [97, 97, 98] 2) ∧
    carryFits [97, 97, 98] [120, 97, 97] 1 ∧ carryFits [97, 97, 98] [120, 97, 97] 2 ∧
    (BMHSearch_find (fresh [97, 97, 98] 2) [120, 97, 97]).state.skip = 2 ∧
    2 ≤ (BMHSearch_find (fresh [97, 97, 98] 2) [120, 97, 97]).state.skip :=
  ⟨rfl, by decide, by decide, by decide,
   (carry_is_longest [97, 97, 98] [120, 97, 97] 2 (fresh [97, 97, 98] 2) rfl (by decide)
      (by
        intro i h
        have hb := occursAt_bound (by decide) h
        have : i = 0 := by simp at hb; omega
        subst this
        revert h
        decide)).2.2 2 (by decide) (by decide) (by decide)⟩
/-- C14 fails on the code.  Needle "ab", capacity 4.  After the chunk "abxx"
(one match, not popped) the chunk "xa" is accepted, its main scan records
nothing, the prefix "a" of the needle ends it, and yet the carry `skip` is
left 0: line 188 tests the counter of the whole buffer with `last` still 0,
which is `hlen - nlen` here.  The same chunk on the popped state leaves the
carry 1.  A pop does not always help: after the chunk "xa" and a pop, the
chunk "ba" stores the boundary match, and its carry is left 0 as well. -/
theorem trailing_detection_skipped :
    BMHSearch_init [97, 98] 4 = .ok (fresh [97, 98] 4) ∧
    (run (fresh [97, 98] 4) [.find [97, 98, 120, 120]]).failed = false ∧
    greedyOcc [97, 98] [120, 97] = [] ∧
    carryFits [97, 98] [120, 97] 1 ∧
    (BMHSearch_find (run (fresh [97, 98] 4) [.find [97, 98, 120, 120]]).state
      [120, 97]).outcome = .returned 1 ∧
    (BMHSearch_find (run (fresh [97, 98] 4) [.find [97, 98, 120, 120]]).state
      [120, 97]).state.skip = 0 ∧
    (BMHSearch_find (run (fresh [97, 98] 4) [.find [97, 98, 120, 120], .pop]).state
      [120, 97]).state.skip = 1 ∧
    greedyOcc [97, 98] [98, 97] = [] ∧
    carryFits [97, 98] [98, 97] 1 ∧
    (BMHSearch_find (run (fresh [97, 98] 4) [.find [120, 97], .pop]).state
      [98, 97]).outcome = .returned 1 ∧
    (BMHSearch_find (run (fresh [97, 98] 4) [.find [120, 97], .pop]).state
      [98, 97]).state.skip = 0 := by
  refine ⟨rfl, ?_, ?_, ?_, ?_, ?_, ?_, ?_, ?_, ?_, ?_⟩ <;> decide

/-- C16 fails on the code.  Needle "aa", capacity 4.  After the chunk "aaa"
the carry is 1; on the chunk "aa" the boundary-carry check succeeds with
remainder 1 and stores offset 2, and the main scan then records a match at
chunk position 0 (offset 3), below the remainder: line 150 sets `hpos` anew
and the advance of line 144 is lost. -/
theorem carry_advance_lost :
    BMHSearch_init [97, 97] 4 = .ok (fresh [97, 97] 4) ∧
    (run (fresh [97, 97] 4) [.find [97, 97, 97]]).failed = false ∧
    (run (fresh [97, 97] 4) [.find [97, 97, 97]]).state.skip = 1 ∧
    (run (fresh [97, 97] 4) [.find [97, 97, 97]]).state.htotal = 3 ∧
    carried (run (fresh [97, 97] 4) [.find [97, 97, 97]]).state [97, 97] = [2] ∧
    carryCheck (run (fresh [97, 97] 4) [.find [97, 97, 97]]).state [97, 97] = ([0, 2, 0, 0], 2) ∧
    scan (run (fresh [97, 97] 4) [.find [97, 97, 97]]).state [97, 97] (2 * 2 + 2) 1 1
      [0, 2, 0, 0] 2 0 = .finished [0, 2, 3, 0] 3 0 ∧
    pending (run (fresh [97, 97] 4) [.find [97, 97, 97], .find [97, 97]]).state = [0, 2, 3] := by
  refine ⟨rfl, ?_, ?_, ?_, ?_, ?_, ?_, ?_⟩ <;> decide

/-- C19 fails on the code.  Needle "ab", capacity 4, chunks "abxx", "xa",
"bx", no call raising.  With a pop after every chunk the offsets reported are
0 and 5 and the carry after the second chunk is 1; with a single pop at the
end only offset 0 is reported and the carry after the second chunk is 0. -/
theorem pop_changes_result :
    BMHSearch_init [97, 98] 4 = .ok (fresh [97, 98] 4) ∧
    (run (fresh [97, 98] 4) [.find [97, 98, 120, 120], .pop, .find [120, 97], .pop,
      .find [98, 120], .pop]).failed = false ∧
    (run (fresh [97, 98] 4) [.find [97, 98, 120, 120], .pop, .find [120, 97], .pop,
      .find [98, 120], .pop]).popped = [0, 5] ∧
    (run (fresh [97, 98] 4) [.find [97, 98, 120, 120], .pop, .find [120, 97]]).state.skip = 1 ∧
    (run (fresh [97, 98] 4) [.find [97, 98, 120, 120], .find [120, 97],
      .find [98, 120], .pop]).failed = false ∧
    (run (fresh [97, 98] 4) [.find [97, 98, 120, 120], .find [120, 97],
      .find [98, 120], .pop]).popped = [0] ∧
    (run (fresh [97, 98] 4) [.find [97, 98, 120, 120], .find [120, 97]]).state.skip = 0 := by
  refine ⟨rfl, ?_, ?_, ?_, ?_, ?_, ?_⟩ <;> decide

theorem scanChecked_agrees (S : BMHSearchState) (hay : List Byte) :
    ∀ (fuel hpos npos : Nat) (fa : List Nat) (nf last : Nat) (r : ScanExit),
      scanChecked S hay fuel hpos npos fa nf last = some r →
      scan S hay fuel hpos npos fa nf last = r := by
  intro fuel
  induction fuel with
  | zero =>
    intro hpos npos fa nf last r h
    simp [scanChecked] at h
    simp [scan, h]
  | succ fuel ih =>
    intro hpos npos fa nf last r h
    rw [scanChecked] at h
    rw [scan]
    have g1 : hay.getD hpos 0 = (hay[hpos]?).getD 0 := by simp [List.getD]
    have g2 : S.needle.getD npos 0 = (S.needle[npos]?).getD 0 := by simp [List.getD]
    rw [g1, g2]
    by_cases hlt : hpos < hay.length
    · cases hh : hay[hpos]? with
      | none => simp [hlt, hh] at h
      | some b =>
        cases hn : S.needle[npos]? with
        | none => simp [hlt, hh, hn] at h
        | some m =>
          simp only [hlt, hh, hn, if_true, true_and, Option.getD_some] at h ⊢
          by_cases hbm : b = m
          · simp only [hbm, decide_True, if_true] at h ⊢
            by_cases h0 : npos = 0
            · simp only [h0, if_true] at h ⊢
              by_cases hcap : nf + 1 > S.max_find
              · simp only [hcap, if_true] at h ⊢
                exact Option.some.inj h
              · simp only [hcap, if_false] at h ⊢
                exact ih _ _ _ _ _ _ h
            · simp only [h0, if_false] at h ⊢
              exact ih _ _ _ _ _ _ h
          · simp only [hbm, decide_False, if_false] at h ⊢
            rw [if_neg (by omega)] at h ⊢
            by_cases hin : hpos + max (S.nlen - npos) (S.occ b) < hay.length
            · simp only [hin, if_true] at h ⊢
              exact ih _ _ _ _ _ _ h
            · simp only [hin, if_false] at h ⊢
              exact Option.some.inj h
    · simp only [hlt, if_false, false_and] at h ⊢
      by_cases hgt : hpos > hay.length
      · simp only [hgt, if_true] at h ⊢
        exact Option.some.inj h
      · simp only [hgt, if_false] at h
        rw [List.getElem?_eq_none (by omega)] at h
        simp at h

/-- C20 fails on the code.  Needle "ab", chunk "abc": after the match at 0
the scan stands at `hpos = 3`, the length of the chunk; line 177 lets it pass
(`3 > 3` is false) and line 180 reads `haystack[3]`.  With checked reads the
scan started by `BMHSearch_find` yields `none`, and so does the single step
taken at `hpos = 3`. -/
theorem scan_reads_past_chunk :
    BMHSearch_init [97, 98] 2 = .ok (fresh [97, 98] 2) ∧
    scanChecked (fresh [97, 98] 2) [97, 98, 99] (3 * 2 + 2) 1 1 [0, 0] 0 0 = none ∧
    scanChecked (fresh [97, 98] 2) [97, 98, 99] 1 3 1 [0, 0] 1 0 = none ∧
    ([97, 98, 99] : List Byte)[3]? = none ∧
    scan (fresh [97, 98] 2) [97, 98, 99] (3 * 2 + 2) 1 1 [0, 0] 0 0 = .finished [0, 0] 1 0 := by
  refine ⟨rfl, ?_, ?_, ?_, ?_⟩ <;> decide
theorem find_ge_spec : ∀ (L : List Nat) (lo : Nat), L.Pairwise (· < ·) →
    (L.find? (fun i => decide (lo ≤ i)) = none → ∀ x ∈ L, x < lo) ∧
    (∀ m, L.find? (fun i => decide (lo ≤ i)) = some m →
      m ∈ L ∧ lo ≤ m ∧ ∀ x ∈ L, lo ≤ x → m ≤ x) := by
  intro L
  induction L with
  | nil => intro lo _; simp
  | cons y ys ih =>
    intro lo hp
    have hp2 := List.pairwise_cons.mp hp
    have ih2 := ih lo hp2.2
    by_cases hy : lo ≤ y
    · simp only [List.find?_cons, hy, decide_True]
      refine ⟨fun h => by simp at h, ?_⟩
      intro m hm
      have : y = m := by simpa using hm
      subst this
      refine ⟨List.mem_cons_self _ _, hy, ?_⟩
      intro x hx _
      rcases List.mem_cons.mp hx with h | h
      · omega
      · have := hp2.1 x h; omega
    · simp only [List.find?_cons, hy, decide_False]
      refine ⟨?_, ?_⟩
      · intro h x hx
        rcases List.mem_cons.mp hx with h2 | h2
        · omega
        · exact ih2.1 h x h2
      · intro m hm
        obtain ⟨h1, h2, h3⟩ := ih2.2 m hm
        refine ⟨List.mem_cons_of_mem _ h1, h2, ?_⟩
        intro x hx hlo
        rcases List.mem_cons.mp hx with h4 | h4
        · omega
        · exact h3 x h4 hlo

/-- What `nextOcc` yields: nothing when no occurrence starts at or after `lo`,
and otherwise the smallest start of an occurrence that is at least `lo`. -/
theorem nextOcc_spec (P H : List Byte) (hP : 0 < P.length) (lo : Nat) :
    (nextOcc P H lo = none → ∀ i, occursAt P H i → i < lo) ∧
    (∀ m, nextOcc P H lo = some m →
      occursAt P H m ∧ lo ≤ m ∧ ∀ i, occursAt P H i → lo ≤ i → m ≤ i) := by
  have hs := find_ge_spec (allOcc P H) lo (allOcc_sorted P H)
  have hmem : ∀ i, occursAt P H i → i ∈ allOcc P H :=
    fun i hi => mem_allOcc.mpr ⟨occursAt_bound hP hi, hi⟩
  refine ⟨fun h i hi => hs.1 h i (hmem i hi), ?_⟩
  intro m hm
  obtain ⟨h1, h2, h3⟩ := hs.2 m hm
  exact ⟨(mem_allOcc.mp h1).2, h2, fun i hi hlo => h3 i (hmem i hi) hlo⟩

theorem thin_eq_next (P H : List Byte) (hP : 0 < P.length) (lo : Nat) :
    thin P.length (allOcc P H) lo =
      match nextOcc P H lo with
      | none => []
      | some m => m :: thin P.length (allOcc P H) (m + P.length) := by
  have hs := find_ge_spec (allOcc P H) lo (allOcc_sorted P H)
  unfold nextOcc
  cases hf : (allOcc P H).find? (fun i => decide (lo ≤ i)) with
  | none =>
    simp only []
    exact thin_none _ _ _ (hs.1 hf)
  | some m =>
    simp only []
    obtain ⟨h1, h2, h3⟩ := hs.2 m hf
    rw [thin_congr P.length (allOcc P H) lo m
      (fun x hx => ⟨fun h => h3 x hx h, fun h => by omega⟩)]
    exact thin_hit _ hP _ _ (allOcc_sorted P H) h1

theorem greedySeq_eq_thin (P H : List Byte) (hP : 0 < P.length) :
    ∀ (k lo : Nat), H.length ≤ k + lo →
      greedySeq P H k lo = thin P.length (allOcc P H) lo := by
  intro k
  induction k with
  | zero =>
    intro lo h
    rw [greedySeq, thin_past P H lo (by omega)]
  | succ k ih =>
    intro lo h
    rw [greedySeq, thin_eq_next P H hP lo]
    cases hf : nextOcc P H lo with
    | none => rfl
    | some m =>
      simp only []
      have := ((nextOcc_spec P H hP lo).2 m hf).2.1
      rw [ih (m + P.length) (by omega)]

theorem thin_gap (n : Nat) : ∀ (L : List Nat) (lo : Nat),
    (∀ y ∈ thin n L lo, lo ≤ y) ∧ (thin n L lo).Pairwise (fun x y => x + n ≤ y) := by
  intro L
  induction L with
  | nil => intro lo; simp [thin]
  | cons x xs ih =>
    intro lo
    rw [thin]
    by_cases hc : lo ≤ x
    · rw [if_pos hc]
      have h := ih (x + n)
      refine ⟨?_, List.pairwise_cons.mpr ⟨h.1, h.2⟩⟩
      intro y hy
      rcases List.mem_cons.mp hy with h2 | h2
      · omega
      · have := h.1 y h2; omega
    · rw [if_neg hc]
      exact ih lo

/-- C18.  For a needle `P` that is not empty and a chunk `H` at least as
long, `find` on the state built by `BMHSearch_init`, with room for the
results, records exactly the sequence `m1, m2, ...` in which `m1` is the
smallest occurrence of `P` in `H` and each next one is the smallest occurrence
at or after the end of the one before (`greedySeq`, built on `nextOcc`); any
two offsets recorded are at least `|P|` apart; and when no two occurrences of
`P` in `H` overlap, the offsets recorded are all the occurrences. -/
theorem find_records_greedy_sequence (P H : List Byte) (c : Nat) (S : BMHSearchState)
    (hinit : BMHSearch_init P c = .ok S) (hlen : P.length ≤ H.length)
    (hcap : (greedySeq P H H.length 0).length ≤ c) :
    (BMHSearch_pop (BMHSearch_find S H).state).1 = greedySeq P H H.length 0 ∧
    (∀ lo, (nextOcc P H lo = none → ∀ i, occursAt P H i → i < lo) ∧
      (∀ m, nextOcc P H lo = some m →
        occursAt P H m ∧ lo ≤ m ∧ ∀ i, occursAt P H i → lo ≤ i → m ≤ i)) ∧
    ((BMHSearch_pop (BMHSearch_find S H).state).1).Pairwise (fun x y => x + P.length ≤ y) ∧
    ((allOcc P H).Pairwise (fun i j => i + P.length ≤ j) →
      (BMHSearch_pop (BMHSearch_find S H).state).1 = allOcc P H) := by
  obtain ⟨hP, rfl⟩ := init_ok hinit
  have hpos : 0 < P.length := List.length_pos.mpr hP
  have hg : greedySeq P H H.length 0 = greedyOcc P H :=
    greedySeq_eq_thin P H hpos H.length 0 (by omega)
  rw [hg] at hcap ⊢
  have h := fresh_find_greedy P H c hP hlen hcap
  rw [h.2]
  exact ⟨rfl, fun lo => nextOcc_spec P H hpos lo, (thin_gap _ _ _).2,
    fun hp => thin_all _ _ _ hp (fun x _ => Nat.zero_le x)⟩

/-- Witness for `find_records_greedy_sequence`: needle "aa", chunk "aaaaa"
records 0 and 2. -/
theorem find_records_greedy_sequence_witness :
    BMHSearch_init [97, 97] 2 = .ok (fresh [97, 97] 2) ∧
    [97, 97].length ≤ [97, 97, 97, 97, 97].length ∧
    (greedySeq [97, 97] [97, 97, 97, 97, 97] [97, 97, 97, 97, 97].length 0).length ≤ 2 ∧
    greedySeq [97, 97] [97, 97, 97, 97, 97] [97, 97, 97, 97, 97].length 0 = [0, 2] ∧
    (BMHSearch_pop (BMHSearch_find (fresh [97, 97] 2) [97, 97, 97, 97, 97]).state).1
      = greedySeq [97, 97] [97, 97, 97, 97, 97] [97, 97, 97, 97, 97].length 0 :=
  ⟨rfl, by decide, by decide, by decide,
   (find_records_greedy_sequence [97, 97] [97, 97, 97, 97, 97] 2 (fresh [97, 97] 2) rfl
      (by decide) (by decide)).1⟩
theorem recordAll_ne_diverged (S : BMHSearchState) : ∀ (ms fa : List Nat) (nf last : Nat),
    recordAll S ms fa nf last ≠ .diverged := by
  intro ms
  induction ms with
  | nil => intro fa nf last h; simp [recordAll] at h
  | cons m ms ih =>
    intro fa nf last
    rw [recordAll]
    by_cases hc : nf + 1 > S.max_find
    · rw [if_pos hc]; simp
    · rw [if_neg hc]; exact ih _ _ _

theorem run_tableOk (P : List Byte) (c : Nat) (hP : P ≠ []) (ops : List Op) :
    TableOk (run (fresh P c) ops).state := by
  have hc := run_consts (fresh P c) ops
  exact tableOk_of_consts (fresh_tableOk P c hP) hc.1 hc.2.1 hc.2.2.1

/-- C17.  On every state reached from `BMHSearch_init` with the needle `P`,
for a chunk `H` at least as long as `P`, the main scan ends: started as
`BMHSearch_find` starts it, with any bound of at least `|H| * |P| + |P|` inner
tests it is left by the end of the loop or by the raise, with the same result
for every such bound, so that `BMHSearch_find` itself ends.  A mismatch at
needle position `npos` moves the start of the alignment `hpos - npos` forward
(the skip is at least `|P| - npos`, one more than the `|P| - 1 - npos` steps
made backward), a match moves it forward by `|P|` (`hpos` advances by
`2 * |P| - 1`), and the scan is left at once when it stands at or past the end
of the chunk with `npos = |P| - 1`. -/
theorem scan_terminates (P : List Byte) (c : Nat) (S : BMHSearchState)
    (hinit : BMHSearch_init P c = .ok S) (ops : List Op) (H : List Byte)
    (hlen : P.length ≤ H.length) (fa : List Nat) (nf last fuel : Nat)
    (hfuel : H.length * P.length + P.length ≤ fuel) :
    scan (run S ops).state H fuel (P.length - 1) (P.length - 1) fa nf last ≠ .diverged ∧
    scan (run S ops).state H fuel (P.length - 1) (P.length - 1) fa nf last
      = scan (run S ops).state H (H.length * P.length + P.length)
          (P.length - 1) (P.length - 1) fa nf last ∧
    (BMHSearch_find (run S ops).state H).outcome ≠ .diverged ∧
    (∀ hpos npos b, npos < P.length → npos ≤ hpos →
      P.length - npos ≤ max ((run S ops).state.nlen - npos) ((run S ops).state.occ b) ∧
      hpos - npos < hpos + max ((run S ops).state.nlen - npos) ((run S ops).state.occ b)
        - ((run S ops).state.nlen - 1)) ∧
    (∀ hpos, hpos + (run S ops).state.nlen + (run S ops).state.nlen - 1
        - ((run S ops).state.nlen - 1) = hpos + P.length) ∧
    (∀ k hpos, H.length ≤ hpos →
      scan (run S ops).state H (k + 1) hpos (P.length - 1) fa nf last
        = .finished fa nf last) := by
  obtain ⟨hP, rfl⟩ := init_ok hinit
  have ok := run_tableOk P c hP ops
  have hc := run_consts (fresh P c) ops
  have hn : (run (fresh P c) ops).state.nlen = P.length := hc.2.1
  have hnd : (run (fresh P c) ops).state.needle = P := hc.1
  generalize (run (fresh P c) ops).state = T at ok hn hnd ⊢
  have hpos := ok.pos
  have key : ∀ f, H.length * P.length + P.length ≤ f →
      scan T H f (P.length - 1) (P.length - 1) fa nf last
        = recordAll T (thin T.needle.length (allOcc T.needle H) 0) fa nf last := by
    intro f hf
    have h := scan_eq_recordAll T H ok f 0 (T.nlen - 1) fa nf last (by omega)
      (by intro j h1 h2; omega) (by rw [hn]; simp only [Nat.sub_zero]; omega)
    rw [Nat.zero_add, hn] at h
    exact h
  refine ⟨?_, ?_, ?_, ?_, ?_, ?_⟩
  · rw [key fuel hfuel]
    exact recordAll_ne_diverged _ _ _ _ _
  · rw [key fuel hfuel, key _ (le_refl _)]
  · rw [find_eq T H ok (by omega)]
    have := recordAll_ne_diverged T (greedyOcc T.needle H) (carryCheck T H).1 (carryCheck T H).2 0
    revert this
    cases recordAll T (greedyOcc T.needle H) (carryCheck T H).1 (carryCheck T H).2 0 <;> simp
  · intro hpos npos b h1 h2
    have := Nat.le_max_left (T.nlen - npos) (T.occ b)
    omega
  · intro hpos
    omega
  · intro k hpos hge
    rw [scan]
    have hcond : ¬ (hpos < H.length ∧ H.getD hpos 0 = T.needle.getD (P.length - 1) 0) :=
      fun h => by omega
    rw [if_neg hcond]
    by_cases hgt : hpos > H.length
    · rw [if_pos hgt]
    · rw [if_neg hgt]
      have := Nat.le_max_left (T.nlen - (P.length - 1)) (T.occ (H.getD hpos 0))
      have : ¬ (hpos + max (T.nlen - (P.length - 1)) (T.occ (H.getD hpos 0)) < H.length) := by
        omega
      simp only [this, if_false]

/-- Witness for `scan_terminates`: needle "ab", chunk "abcab" after an
earlier chunk, with the bound `5 * 2 + 2` of `BMHSearch_find`. -/
theorem scan_terminates_witness :
    BMHSearch_init [97, 98] 4 = .ok (fresh [97, 98] 4) ∧
    [97, 98].length ≤ [97, 98, 99, 97, 98].length ∧
    scan (run (fresh [97, 98] 4) [.find [120, 120, 97]]).state [97, 98, 99, 97, 98]
      (5 * 2 + 2) ([97, 98].length - 1) ([97, 98].length - 1) [1, 0, 0, 0] 1 0 ≠ .diverged :=
  ⟨rfl, by decide,
   (scan_terminates [97, 98] 4 (fresh [97, 98] 4) rfl [.find [120, 120, 97]]
      [97, 98, 99, 97, 98] (by decide) [1, 0, 0, 0] 1 0 (5 * 2 + 2) (by decide)).1⟩

end BMHSearch
